import Mathlib

/-!
# ssm: SSH session manager

A shallow embedding of `internal/config/config.go`, `internal/menu/menu.go`,
`internal/tmux/tmux.go` and `cmd/ssm/main.go`, followed by theorems about it.

Conventions of the embedding.

* Go strings are Lean `String`s (sequences of code points; only valid UTF-8 is
  represented).  Functions of the Go standard library that the program calls are
  written out here on the character list of the string, by structural recursion.
* The parts of the libraries that are large tables (`unicode.ToLower` above ASCII,
  the title caser of `golang.org/x/text/cases`, `filepath.Join`) are fields of
  `Lib`; every definition that needs them takes a `Lib`, and the theorems hold for
  every `Lib`.
* A Go `map[string]V` is an `AList`: a finite map with pairwise distinct keys and
  no meaningful order.  Ranging over it and then sorting by key is modelled by
  sorting its entries.
* A `bufio.Scanner` is the list of lines it yields together with the error that
  ends the scan after the last of them (a read error, or a line longer than the
  buffer of the scanner).  The scanner meets that error when `Scan()` is called
  after the last line: `Err()` reports it once a loop over `Scan()` has run to its
  end, and reports nothing when the loop was left earlier by `break`.
* `sort.Slice` is modelled by insertion sort; the program only sorts slices with
  pairwise distinct keys, for which every sorting algorithm returns the same slice
  (`insertionSort_key_perm`).
* The operating system (environment, search path, files, external commands,
  `syscall.Exec`) is a record `OS`; code with effects returns a `Run`: the
  actions it performed, in order, and how control left it.
-/

namespace Ssm

/-! ## Library functions -/

/-- Library tables that are not reproduced: `lowerRune` is `unicode.ToLower` on
runes outside ASCII, `title` is `cases.Title(language.English).String`,
`pathJoin` is `filepath.Join`. -/
structure Lib where
  lowerRune : Char → Char
  title : String → String
  pathJoin : List String → String

/-- The predicate `unicode.IsSpace`: the Latin-1 spaces and the code points with
the White_Space property. -/
def isSpace (c : Char) : Bool :=
  let n := c.toNat
  n = 0x09 || n = 0x0A || n = 0x0B || n = 0x0C || n = 0x0D || n = 0x20 ||
  n = 0x85 || n = 0xA0 || n = 0x1680 || (0x2000 ≤ n && n ≤ 0x200A) ||
  n = 0x2028 || n = 0x2029 || n = 0x202F || n = 0x205F || n = 0x3000

/-- Drop the longest suffix of space characters. -/
def trimRight (cs : List Char) : List Char :=
  (cs.reverse.dropWhile isSpace).reverse

/-- The function `strings.TrimSpace`: remove leading and trailing white space. -/
def TrimSpace (s : String) : String :=
  ⟨trimRight (s.data.dropWhile isSpace)⟩

/-- The function `strings.HasPrefix`. -/
def startsWith (s p : String) : Bool :=
  p.data.isPrefixOf s.data

/-- Scan for fields: `cur` is the field being read, reversed. -/
def fieldsAux : List Char → List Char → List String
  | [], cur => if cur = [] then [] else [⟨cur.reverse⟩]
  | c :: cs, cur =>
    if isSpace c then
      (if cur = [] then fieldsAux cs [] else ⟨cur.reverse⟩ :: fieldsAux cs [])
    else fieldsAux cs (c :: cur)

/-- The function `strings.Fields`: the maximal runs of non-space characters. -/
def Fields (s : String) : List String :=
  fieldsAux s.data []

/-- The function `strings.ToLower`: ASCII letters are lowered directly, other
runes through the Unicode table. -/
def ToLower (T : Lib) (s : String) : String :=
  ⟨s.data.map (fun c => if c.toNat < 128 then c.toLower else T.lowerRune c)⟩

/-- The function `strings.Join`. -/
def Join : List String → String → String
  | [], _ => ""
  | [a], _ => a
  | a :: b :: rest, sep => a ++ sep ++ Join (b :: rest) sep

/-- Whether `sub` occurs in `cs` as a contiguous block. -/
def containsAux (sub : List Char) : List Char → Bool
  | [] => sub.isEmpty
  | c :: cs => sub.isPrefixOf (c :: cs) || containsAux sub cs

/-- The function `strings.Contains`. -/
def Contains (s sub : String) : Bool :=
  containsAux sub.data s.data

/-- Split at every occurrence of `sep`; `cur` is the piece being read, reversed. -/
def splitAux (sep : Char) : List Char → List Char → List String
  | [], cur => [⟨cur.reverse⟩]
  | c :: cs, cur =>
    if c = sep then ⟨cur.reverse⟩ :: splitAux sep cs [] else splitAux sep cs (c :: cur)

/-- The function `strings.Split` for a separator of one character (the program
splits at a newline, a comma and a blank only). -/
def Split (s : String) (sep : Char) : List String :=
  splitAux sep s.data []

/-- Comparison `a < b` of Go strings: lexicographic on the code points, which is
the byte order of their UTF-8 encoding. -/
def strLt (a b : String) : Bool :=
  decide (a.data < b.data)

/-- A `bufio.Scanner` over a file: the lines that `Scan()` yields, and the error
that ends the scan after the last line, which `Err()` reports once `Scan()` has
returned false. -/
structure Scanner where
  lines : List String
  err : Option String
deriving DecidableEq, Repr

-- Results of fallible calls are compared by evaluation.
deriving instance DecidableEq for Except

/-! ## internal/config/config.go -/

/-- Host represents an SSH host configuration entry. -/
structure Host where
  Alias : String
  HostName : String
deriving DecidableEq, Repr

/-- Errors built with `fmt.Errorf` in the config and menu packages. -/
inductive ConfigError where
  | homeDir (cause : String)
  | openFile (path : String) (cause : String)
  | read (cause : String)
deriving DecidableEq, Repr

/-- The head of the loop body shared by `parseSSHConfig` (lines 38-45) and
`getHostDetails` (lines 374-381): trim the line, skip comments, split it into
fields and, when there are at least two, return the lowered key and the value.
`none` stands for a line the loop body ignores. -/
def parseLine (T : Lib) (raw : String) : Option (String × String) :=
  let line := TrimSpace raw
  if startsWith line "#" then none
  else
    match Fields line with
    | key :: p :: rest => some (ToLower T key, Join (p :: rest) " ")
    | _ => none

/-- The map `hosts` of `parseSSHConfig`. -/
abbrev HostMap := AList (fun _ : String => Host)

/-- The variables of the loop in `parseSSHConfig`. -/
structure ParseState where
  hosts : HostMap
  currentHost : String

/-- One iteration of the loop in `parseSSHConfig` (lines 37-58). -/
def parseStep (T : Lib) (st : ParseState) (raw : String) : ParseState :=
  match parseLine T raw with
  | none => st
  | some (key, value) =>
    if key = "host" ∧ value ≠ "*" then
      { hosts := st.hosts.insert value { Alias := value, HostName := "" },
        currentHost := value }
    else if st.currentHost ≠ "" then
      if key = "hostname" then
        let host := (st.hosts.lookup st.currentHost).getD { Alias := "", HostName := "" }
        { st with hosts := st.hosts.insert st.currentHost { host with HostName := value } }
      else st
    else st

/-- The state of `parseSSHConfig` after the loop over the given lines. -/
def parseLines (T : Lib) (lines : List String) : ParseState :=
  lines.foldl (parseStep T) { hosts := ∅, currentHost := "" }

/-- parseSSHConfig parses SSH configuration from the scanner and returns a map of hosts. -/
def parseSSHConfig (T : Lib) (scanner : Scanner) : Except ConfigError HostMap :=
  let st := parseLines T scanner.lines
  match scanner.err with
  | some e => .error (.read e)
  | none => .ok st.hosts

/-- The call `sort.Slice(result, less)` with `less i j := result[i].Alias < result[j].Alias`:
a rearrangement of the slice in which no element is less than an earlier one. -/
def sortHosts (l : List Host) : List Host :=
  l.insertionSort (fun x y => strLt y.Alias x.Alias = false)

/-- The values of the map, as `range hosts` appends them, then sorted. -/
def hostsOfMap (hosts : HostMap) : List Host :=
  sortHosts (hosts.entries.map (fun e => e.2))

/-- The files of the system: `os.Open` followed by `bufio.NewScanner`. -/
abbrev FileSystem := String → Except String Scanner

/-- GetSSHHostsFromPath reads SSH hosts from the specified configuration file path. -/
def GetSSHHostsFromPath (T : Lib) (fs : FileSystem) (configPath : String) :
    Except ConfigError (List Host) :=
  match fs configPath with
  | .error e => .error (.openFile configPath e)
  | .ok scanner =>
    match parseSSHConfig T scanner with
    | .error e => .error e
    | .ok hosts => .ok (hostsOfMap hosts)

/-- GetSSHHosts reads SSH hosts from the default configuration file. -/
def GetSSHHosts (T : Lib) (userHomeDir : Except String String) (fs : FileSystem) :
    Except ConfigError (List Host) :=
  match userHomeDir with
  | .error e => .error (.homeDir e)
  | .ok home => GetSSHHostsFromPath T fs (T.pathJoin [home, ".ssh", "config"])

/-! ## The operating system -/

/-- What the program asks of the operating system.  `exec path argv` is
`syscall.Exec`: `none` when the process image is replaced (the call does not
return), `some e` when it returns the error `e`.  `output argv` is
`exec.Command(argv...).Output()`. -/
structure OS where
  getenv : String → String
  userHomeDir : Except String String
  openFile : FileSystem
  lookPath : String → Except String String
  output : List String → Except String String
  exec : String → List String → Option String

/-- The diagnostics that `main` prints to the error stream. -/
inductive Diag where
  | readConfig (e : ConfigError)
  | noHosts
  | menu (e : String)
  | sshNotFound (e : String)
  | execFailed (e : String)
deriving DecidableEq, Repr

/-- The observable actions of the program. -/
inductive Action where
  | stderr (d : Diag)
  | connecting (host : String)
  | lookPath (file : String)
  | output (argv : List String)
  | exec (path : String) (argv : List String)
deriving DecidableEq, Repr

/-- How control leaves a piece of code: it returns to its caller, the process
image has been replaced, or the process has exited with a status. -/
inductive Ending where
  | returned
  | replaced
  | exited (code : Nat)
deriving DecidableEq, Repr

/-- The actions performed by a piece of code, in order, and how control left it. -/
structure Run where
  actions : List Action
  ending : Ending
deriving DecidableEq, Repr

/-- Perform `acts`, then continue as `r`. -/
def Run.after (acts : List Action) (r : Run) : Run :=
  { actions := acts ++ r.actions, ending := r.ending }

/-! ## internal/menu/menu.go -/

/-- sshKeyCapitalization maps lowercase SSH config keys to their proper capitalization. -/
def sshKeyCapitalization : List (String × String) :=
  [("hostname", "HostName"),
   ("identityfile", "IdentityFile"),
   ("identitiesonly", "IdentitiesOnly"),
   ("proxycommand", "ProxyCommand"),
   ("controlmaster", "ControlMaster"),
   ("controlpath", "ControlPath"),
   ("controlpersist", "ControlPersist"),
   ("userknownhostsfile", "UserKnownHostsFile"),
   ("globalknownhostsfile", "GlobalKnownHostsFile"),
   ("stricthostkeychecking", "StrictHostKeyChecking"),
   ("user", "User"),
   ("port", "Port"),
   ("forwardagent", "ForwardAgent"),
   ("forwardx11", "ForwardX11"),
   ("compression", "Compression"),
   ("serveraliveinterval", "ServerAliveInterval"),
   ("serveralivecountmax", "ServerAliveCountMax")]

/-- capitalizeSSHKey returns the properly capitalized version of an SSH config key. -/
def capitalizeSSHKey (T : Lib) (key : String) : String :=
  match sshKeyCapitalization.lookup key with
  | some proper => proper
  | none => T.title key

/-- The map `Details` of a `HostDetails`. -/
abbrev DetailMap := AList (fun _ : String => String)

/-- HostDetails contains detailed configuration information for an SSH host. -/
structure HostDetails where
  Alias : String
  HostName : String
  Details : DetailMap
deriving DecidableEq

/-- How the loop of `getHostDetails` ends: the map `details`, and whether the
loop was left by `break` rather than at the end of the lines. -/
structure ScanResult where
  details : DetailMap
  leftByBreak : Bool
deriving DecidableEq

/-- The loop of `getHostDetails` (lines 373-391) over the remaining lines, with
the variables `inHost` and `details`. -/
def scanDetails (T : Lib) (target : String) : List String → Bool → DetailMap → ScanResult
  | [], _, details => { details := details, leftByBreak := false }
  | raw :: rest, inHost, details =>
    match parseLine T raw with
    | none => scanDetails T target rest inHost details
    | some (key, configValue) =>
      if key = "host" ∧ Contains configValue target = true then
        scanDetails T target rest true details
      else if key = "host" ∧ inHost = true then
        { details := details, leftByBreak := true }
      else if inHost = true then
        scanDetails T target rest inHost (details.insert (capitalizeSSHKey T key) configValue)
      else
        scanDetails T target rest inHost details

/-- The function `getHostDetails`.  After `break` the scanner has not been asked
for a further line, so `scanner.Err()` is nil whatever ends the scan later. -/
def getHostDetails (T : Lib) (os : OS) (host : Host) : Except ConfigError HostDetails :=
  match os.userHomeDir with
  | .error e => .error (.homeDir e)
  | .ok homeDir =>
    let configPath := T.pathJoin [homeDir, ".ssh", "config"]
    match os.openFile configPath with
    | .error e => .error (.openFile configPath e)
    | .ok scanner =>
      let scan := scanDetails T host.Alias scanner.lines false ∅
      let err := if scan.leftByBreak = true then none else scanner.err
      match err with
      | some e => .error (.read e)
      | none => .ok { Alias := host.Alias, HostName := host.HostName, Details := scan.details }

/-- The messages that `Update` distinguishes: a key press, by the text
`msg.String()`, a change of the window size, and any other message. -/
inductive Msg where
  | key (s : String)
  | windowSize (width height : Int)
  | other
deriving DecidableEq, Repr

/-- The commands that `Update` returns: none, `tea.Quit`, `tea.ExecProcess` of
the editor on the configuration file, or a command of the list widget. -/
inductive Cmd where
  | nil
  | quit
  | execProcess (editor path : String)
  | widget (id : Nat)
deriving DecidableEq, Repr

/-- The menu model; the field `help`, which `Update` never changes, is left out. -/
structure Model (L : Type) where
  list : L
  choice : String
  done : Bool
  viewing : Bool
  hostDetails : Option HostDetails
  width : Int
  height : Int

/-- What the program uses of the UI toolkit, for a list widget with state `L`:
`list.New`, `SelectedItem`, `SetSize`, `Update`, and the event loop
`tea.NewProgram(m).Run()`, which returns the final model or an error. -/
structure Toolkit (L : Type) where
  newList : List Host → L
  selectedItem : L → Option Host
  setSize : Int → Int → L → L
  updateList : Msg → L → L × Cmd
  runProgram : Model L → Except String (Model L)

/-- NewModel creates a new menu model with the given SSH hosts. -/
def NewModel {L : Type} (W : Toolkit L) (hosts : List Host) : Model L :=
  { list := W.newList hosts, choice := "", done := false, viewing := false,
    hostDetails := none, width := 0, height := 0 }

/-- getEditor returns the preferred editor from the EDITOR environment variable. -/
def getEditor (os : OS) : String :=
  os.getenv "EDITOR"

/-- getSSHConfigPath returns the path to the SSH configuration file of the user
(an error of `os.UserHomeDir` is dropped, the home directory is then empty). -/
def getSSHConfigPath (T : Lib) (os : OS) : String :=
  let home := match os.userHomeDir with
    | .ok h => h
    | .error _ => ""
  T.pathJoin [home, ".ssh", "config"]

/-- openEditor opens the SSH config file in the preferred editor. -/
def openEditor (T : Lib) (os : OS) : Cmd :=
  let editor := getEditor os
  if editor = "" then .nil else .execProcess editor (getSSHConfigPath T os)

/-- showHostDetails loads the details of the selected host into the model. -/
def showHostDetails {L : Type} (W : Toolkit L) (T : Lib) (os : OS) (m : Model L) :
    Model L × Cmd :=
  match W.selectedItem m.list with
  | some item =>
    match getHostDetails T os item with
    | .error _ => (m, .nil)
    | .ok details => ({ m with viewing := true, hostDetails := some details }, .nil)
  | none => (m, .nil)

/-- The end of `Update` (lines 249-251): the message goes to the list widget. -/
def updateList {L : Type} (W : Toolkit L) (m : Model L) (msg : Msg) : Model L × Cmd :=
  let r := W.updateList msg m.list
  ({ m with list := r.1 }, r.2)

/-- Update handles messages and updates the model state.  The frame of
`docStyle` (margin 1 and 2) is 4 columns and 2 rows. -/
def Update {L : Type} (W : Toolkit L) (T : Lib) (os : OS) (m : Model L) (msg : Msg) :
    Model L × Cmd :=
  match msg with
  | .key s =>
    if s = "enter" then
      match W.selectedItem m.list with
      | some item => ({ m with choice := item.Alias, done := true }, .quit)
      | none => updateList W m msg
    else if s = "e" then (m, openEditor T os)
    else if s = "v" then showHostDetails W T os m
    else if s = "esc" then
      if m.viewing then ({ m with viewing := false, hostDetails := none }, .nil)
      else ({ m with choice := "exit", done := true }, .quit)
    else if s = "q" ∨ s = "ctrl+c" then ({ m with choice := "exit", done := true }, .quit)
    else updateList W m msg
  | .windowSize width height =>
    updateList W
      { m with list := W.setSize (width - 4) (height - 2) m.list, width := width,
               height := height } msg
  | .other => updateList W m msg

/-- The slice `pairs` of `createPopupView` before it is sorted: the entries of
`Details`, and the hostname of the host under `HostName` when `Details` has no
such key and the hostname is not empty. -/
def popupPairs (hd : HostDetails) : List (String × String) :=
  let pairs := hd.Details.entries.map (fun e => (e.1, e.2))
  if hd.Details.lookup "HostName" = none ∧ hd.HostName ≠ "" then
    pairs ++ [("HostName", hd.HostName)]
  else pairs

/-- The slice `pairs` after `sort.Slice` by key. -/
def sortedPairs (hd : HostDetails) : List (String × String) :=
  (popupPairs hd).insertionSort (fun x y => strLt y.1 x.1 = false)

/-- The variable `maxKeyLen`: the largest `len(pair.key)`, a number of bytes. -/
def maxKeyLen (pairs : List (String × String)) : Nat :=
  pairs.foldl (fun m pair => if pair.1.utf8ByteSize > m then pair.1.utf8ByteSize else m) 0

/-- The verb `%-*s` of `fmt`: the string, then blanks up to `width` characters. -/
def padRight (s : String) (width : Nat) : String :=
  s ++ ⟨List.replicate (width - s.length) (Char.ofNat 32)⟩

/-- One row: `fmt.Sprintf("%-*s    %s\n", maxKeyLen, pair.key, pair.value)`. -/
def formatRow (width : Nat) (pair : String × String) : String :=
  padRight pair.1 width ++ "    " ++ pair.2 ++ "\n"

/-- The rows that `createPopupView` writes after the header, in order. -/
def popupRows (hd : HostDetails) : List String :=
  (sortedPairs hd).map (formatRow (maxKeyLen (sortedPairs hd)))

/-- createPopupView creates the text of the popup for host details. -/
def createPopupView {L : Type} (m : Model L) : String :=
  match m.hostDetails with
  | none => ""
  | some hd => hd.Alias ++ "\n\n" ++ String.join (popupRows hd)

/-- RenderMenu displays the menu and returns the selected host alias or "exit". -/
def RenderMenu {L : Type} (W : Toolkit L) (hosts : List Host) : Except String String :=
  match W.runProgram (NewModel W hosts) with
  | .error e => .error e
  | .ok model => .ok model.choice

/-! ## internal/tmux/tmux.go -/

/-- IsTmuxSession returns true if the current process is running inside a tmux session. -/
def IsTmuxSession (os : OS) : Bool :=
  os.getenv "TMUX" ≠ ""

/-- The arguments of the command that lists the windows. -/
def listWindowsArgv : List String :=
  ["tmux", "list-windows", "-F", "#\x7bwindow_index\x7d,#\x7bwindow_name\x7d"]

/-- The loop of `SSHWindow` over the remaining lines (lines 32-41) and the code
after it (lines 43-48). -/
def windowLoop (os : OS) (host : String) : List String → Run
  | [] =>
    match os.lookPath "tmux" with
    | .error _ => { actions := [.lookPath "tmux"], ending := .returned }
    | .ok tmuxPath =>
      let argv := ["tmux", "new-window", "-n", "ssh:" ++ host, "ssh", host]
      match os.exec tmuxPath argv with
      | none => { actions := [.lookPath "tmux", .exec tmuxPath argv], ending := .replaced }
      | some _ => { actions := [.lookPath "tmux", .exec tmuxPath argv], ending := .returned }
  | line :: rest =>
    match Split line (Char.ofNat 44) with
    | [index, name] =>
      if name = "ssh:" ++ host then
        match os.lookPath "tmux" with
        | .error _ => { actions := [.lookPath "tmux"], ending := .returned }
        | .ok tmuxPath =>
          let argv := ["tmux", "select-window", "-t", index]
          match os.exec tmuxPath argv with
          | none => { actions := [.lookPath "tmux", .exec tmuxPath argv], ending := .replaced }
          | some _ => Run.after [.lookPath "tmux", .exec tmuxPath argv] (windowLoop os host rest)
      else windowLoop os host rest
    | _ => windowLoop os host rest

/-- SSHWindow creates or switches to a tmux window for the given SSH host. -/
def SSHWindow (os : OS) (host : String) : Run :=
  if IsTmuxSession os = false then { actions := [], ending := .returned }
  else
    match os.output listWindowsArgv with
    | .error _ => { actions := [.output listWindowsArgv], ending := .returned }
    | .ok output =>
      Run.after [.output listWindowsArgv]
        (windowLoop os host (Split (TrimSpace output) (Char.ofNat 10)))

/-! ## cmd/ssm/main.go -/

/-- The clean-up of the selection in `main` (lines 39-41): what precedes the
first blank. -/
def cleanHost (choice : String) : String :=
  if Contains choice " " = true then (Split choice (Char.ofNat 32)).headD "" else choice

/-- The part of `main` after the menu (lines 29-60), given what `RenderMenu` returned. -/
def mainAfterMenu (os : OS) (rendered : Except String String) : Run :=
  match rendered with
  | .error e => { actions := [.stderr (.menu e)], ending := .exited 1 }
  | .ok choice =>
    if choice = "exit" then { actions := [], ending := .exited 0 }
    else
      let host := cleanHost choice
      match os.lookPath "ssh" with
      | .error e =>
        { actions := [.connecting host, .lookPath "ssh", .stderr (.sshNotFound e)],
          ending := .exited 1 }
      | .ok sshPath =>
        let window := SSHWindow os host
        match window.ending with
        | .returned =>
          let argv := ["ssh", host]
          match os.exec sshPath argv with
          | none =>
            { actions := [.connecting host, .lookPath "ssh"] ++ window.actions ++
                [.exec sshPath argv],
              ending := .replaced }
          | some e =>
            { actions := [.connecting host, .lookPath "ssh"] ++ window.actions ++
                [.exec sshPath argv, .stderr (.execFailed e)],
              ending := .exited 1 }
        | ending => { actions := [.connecting host, .lookPath "ssh"] ++ window.actions,
                      ending := ending }

/-- The function `main`. -/
def main {L : Type} (T : Lib) (W : Toolkit L) (os : OS) : Run :=
  match GetSSHHosts T os.userHomeDir os.openFile with
  | .error e => { actions := [.stderr (.readConfig e)], ending := .exited 1 }
  | .ok hosts =>
    if hosts.length = 0 then { actions := [.stderr .noHosts], ending := .exited 1 }
    else mainAfterMenu os (RenderMenu W hosts)

/-! ## Notions used to state the properties -/

/-- The value of a line that is a Host directive: the line is not a comment, has
at least two fields, and its first field is `host` in any letter case. -/
def hostValue (T : Lib) (raw : String) : Option String :=
  match parseLine T raw with
  | some (key, value) => if key = "host" then some value else none
  | none => none

/-- The values of the Host directives of a configuration, in order. -/
def hostValues (T : Lib) (lines : List String) : List String :=
  lines.filterMap (hostValue T)

/-- Invariant of the loop of `parseSSHConfig`: the cursor, when set, is a key of
the map, and every entry is stored under its own alias. -/
def ParseInv (st : ParseState) : Prop :=
  (st.currentHost ≠ "" → st.currentHost ∈ st.hosts) ∧
  ∀ k h, st.hosts.lookup k = some h → h.Alias = k

/-- A library instance to evaluate the program on concrete inputs: it agrees with
the Go libraries on ASCII strings (where `lowerRune` is never consulted), on keys
that are one lowercase ASCII word, and on path elements without separators. -/
def asciiLib : Lib where
  lowerRune := fun c => c
  title := fun s =>
    match s.data with
    | [] => ""
    | c :: cs => ⟨c.toUpper :: cs⟩
  pathJoin := fun parts => Join parts "/"

/-- The configuration written by `TestGetSSHHosts` in `config_test.go`. -/
def testConfig : List String :=
  ["# This is a comment", "Host *", "    User default", "", "Host server1",
   "    HostName 192.168.1.100", "", "Host server2", "    HostName example.com", "",
   "# Another comment", "Host server3", "    HostName test.com"]

/-- A comment line: its first character that is not white space is `#`. -/
def isCommentLine (raw : String) : Bool :=
  (raw.data.dropWhile isSpace).head? = some (Char.ofNat 35)

/-- A configuration in which a wildcard block follows the block of a host. -/
def wildcardAfterHost : List String :=
  ["Host web", "    HostName 10.0.0.1", "Host *", "    HostName fallback.example.com"]

/-- A file system in which every path opens and yields the given lines. -/
def fileWith (lines : List String) : FileSystem :=
  fun _ => .ok { lines := lines, err := none }

/-- A file system in which no path can be opened. -/
def noFiles : FileSystem :=
  fun _ => .error "no such file or directory"

/-- A system whose configuration file holds the given lines, outside a tmux
session, where every program is found and `syscall.Exec` succeeds. -/
def osWith (lines : List String) : OS where
  getenv := fun _ => ""
  userHomeDir := .ok "/home/user"
  openFile := fileWith lines
  lookPath := fun file => .ok ("/usr/bin/" ++ file)
  output := fun _ => .error "exit status 1"
  exec := fun _ _ => none

/-- A system as `osWith`, whose configuration file is read through the given scanner. -/
def osWithScanner (scanner : Scanner) : OS where
  getenv := fun _ => ""
  userHomeDir := .ok "/home/user"
  openFile := fun _ => .ok scanner
  lookPath := fun file => .ok ("/usr/bin/" ++ file)
  output := fun _ => .error "exit status 1"
  exec := fun _ _ => none

/-- The value that `getHostDetails` reports under a key, if the call succeeds. -/
def detailOf (T : Lib) (os : OS) (host : Host) (key : String) : Option String :=
  match getHostDetails T os host with
  | .ok details => details.Details.lookup key
  | .error _ => none

/-- A line is a Host directive whose value contains the target as a substring. -/
def matchesTarget (T : Lib) (target raw : String) : Bool :=
  match hostValue T raw with
  | some value => Contains value target
  | none => false

/-- A line is a Host directive whose value does not contain the target. -/
def isOtherHost (T : Lib) (target raw : String) : Bool :=
  match hostValue T raw with
  | some value => !Contains value target
  | none => false

/-- The directives of the given lines other than Host directives, in order, each
as the pair of its canonical key and its value. -/
def directivesOf (T : Lib) (lines : List String) : List (String × String) :=
  lines.filterMap (fun raw =>
    match parseLine T raw with
    | some (key, value) => if key = "host" then none else some (capitalizeSSHKey T key, value)
    | none => none)

/-- The value of the last pair with the given key ("last value wins"). -/
def lastValueOf : List (String × String) → String → Option String
  | [], _ => none
  | (k, v) :: rest, key =>
    match lastValueOf rest key with
    | some w => some w
    | none => if k = key then some v else none

/-- The lines after the first Host directive whose value contains the target. -/
def afterFirstMatch (T : Lib) (target : String) (lines : List String) : List String :=
  (lines.dropWhile (fun raw => !matchesTarget T target raw)).tail

/-- The lines between the first matching Host line and the next Host line. -/
def blockToNextHost (T : Lib) (target : String) (lines : List String) : List String :=
  (afterFirstMatch T target lines).takeWhile (fun raw => (hostValue T raw).isNone)

/-- The lines between the first matching Host line and the next Host line whose
value does not contain the target. -/
def blockToNextOtherHost (T : Lib) (target : String) (lines : List String) : List String :=
  (afterFirstMatch T target lines).takeWhile (fun raw => !isOtherHost T target raw)

/-- A configuration in which the alias of one block is a prefix of the next. -/
def serverConfig : List String :=
  ["Host server1", "    HostName 192.168.1.100", "Host server10", "    HostName 10.0.0.10"]

/-- A configuration with the blocks of `web` and of `web2`. -/
def webConfig : List String :=
  ["Host web", "    User alice", "Host web2", "    Port 2222"]

/-- The hosts that the config reader returns for `webConfig`. -/
def webHosts : List Host :=
  [{ Alias := "web", HostName := "" }, { Alias := "web2", HostName := "" }]

/-- The output of `tmux list-windows -F "#{window_index},#{window_name}"` for the
given windows: one line `<index>,<name>` per window. -/
def renderWindows : List (Nat × String) → String
  | [] => ""
  | (index, name) :: rest => toString index ++ "," ++ name ++ "\n" ++ renderWindows rest

/-- A system inside a tmux session whose windows are the given ones, where every
program is found and `syscall.Exec` succeeds. -/
def tmuxOS (windows : List (Nat × String)) : OS where
  getenv := fun name => if name = "TMUX" then "/tmp/tmux-1000/default,1234,0" else ""
  userHomeDir := .ok "/home/user"
  openFile := noFiles
  lookPath := fun file => .ok ("/usr/bin/" ++ file)
  output := fun argv =>
    if argv = listWindowsArgv then .ok (renderWindows windows) else .error "exit status 1"
  exec := fun _ _ => none

/-- A toolkit to evaluate the menu on concrete inputs: the list widget is the list
of hosts with the index of the highlighted one, and the event loop is that of a
user who quits at once. -/
def plainToolkit : Toolkit (List Host × Nat) where
  newList := fun hosts => (hosts, 0)
  selectedItem := fun l => l.1.get? l.2
  setSize := fun _ _ l => l
  updateList := fun _ l => (l, .nil)
  runProgram := fun m => .ok { m with choice := "exit", done := true }

/-- The details of a host with a hostname whose block has a `User` directive only. -/
def userAndHostDetails : HostDetails :=
  { Alias := "web", HostName := "10.0.0.1", Details := (∅ : DetailMap).insert "User" "alice" }

/-- The details of a host whose block has a `User` directive and no `HostName`. -/
def userOnlyDetails : HostDetails :=
  { Alias := "web", HostName := "", Details := (∅ : DetailMap).insert "User" "alice" }

/-- A line is a Host directive with a value other than `*`: the lines at which
`parseSSHConfig` starts a new entry. -/
def isNewHostLine (T : Lib) (raw : String) : Bool :=
  match hostValue T raw with
  | some value => value ≠ "*"
  | none => false

/-- The value of the last directive with key `hostname` among the given lines. -/
def lastHostName (T : Lib) (lines : List String) : Option String :=
  lastValueOf (lines.filterMap (parseLine T)) "hostname"

/-- A configuration whose only block is that of a host with the alias `exit`. -/
def exitConfig : List String :=
  ["Host exit", "    HostName 10.0.0.5"]

/-- The hosts that the config reader returns for `exitConfig`. -/
def exitHosts : List Host :=
  [{ Alias := "exit", HostName := "10.0.0.5" }]

/-- The toolkit `plainToolkit` with the event loop of a user who presses `enter`
at once: the final model is the one `Update` returns for that key. -/
def enterToolkit : Toolkit (List Host × Nat) where
  newList := fun hosts => (hosts, 0)
  selectedItem := fun l => l.1.get? l.2
  setSize := fun _ _ l => l
  updateList := fun _ l => (l, .nil)
  runProgram := fun m =>
    match m.list.1.get? m.list.2 with
    | some item => .ok { m with choice := item.Alias, done := true }
    | none => .ok m

/-! # Theorems -/

/-! ## Facts about the library functions -/

theorem strLt_iff (a b : String) : strLt a b = true ↔ a < b := by
  simp [strLt, String.lt_iff_toList_lt]

theorem strLt_eq_false_iff (a b : String) : strLt a b = false ↔ b ≤ a := by
  rw [← not_lt, ← strLt_iff]
  cases strLt a b <;> simp

/-! ## The config reader -/

theorem parseInv_init : ParseInv { hosts := ∅, currentHost := "" } := by
  constructor
  · intro h; exact absurd rfl h
  · intro k h hk; simp at hk

theorem parseInv_step (T : Lib) (st : ParseState) (raw : String) (hinv : ParseInv st) :
    ParseInv (parseStep T st raw) := by
  obtain ⟨hcur, hal⟩ := hinv
  unfold parseStep
  cases hp : parseLine T raw with
  | none => exact ⟨hcur, hal⟩
  | some kv =>
    obtain ⟨key, value⟩ := kv
    simp only
    split_ifs with h1 h2 h3
    · refine ⟨fun _ => ?_, ?_⟩
      · simp [AList.mem_insert]
      · intro k h hk
        by_cases hkv : k = value
        · subst hkv
          rw [AList.lookup_insert] at hk
          cases hk; rfl
        · rw [AList.lookup_insert_ne hkv] at hk
          exact hal k h hk
    · refine ⟨fun _ => ?_, ?_⟩
      · simp [AList.mem_insert]
      · intro k h hk
        by_cases hkv : k = st.currentHost
        · subst hkv
          rw [AList.lookup_insert] at hk
          have hmem := hcur h2
          rw [← AList.lookup_isSome] at hmem
          obtain ⟨h0, hh0⟩ := Option.isSome_iff_exists.mp hmem
          have := hal _ _ hh0
          cases hk
          simp [hh0, this]
        · rw [AList.lookup_insert_ne hkv] at hk
          exact hal k h hk
    · exact ⟨hcur, hal⟩
    · exact ⟨hcur, hal⟩

theorem parseInv_foldl (T : Lib) (lines : List String) (st : ParseState) (hinv : ParseInv st) :
    ParseInv (lines.foldl (parseStep T) st) := by
  induction lines generalizing st with
  | nil => exact hinv
  | cons l ls ih => exact ih _ (parseInv_step T st l hinv)

theorem mem_parseStep (T : Lib) (st : ParseState) (raw : String) (hinv : ParseInv st)
    (k : String) :
    k ∈ (parseStep T st raw).hosts ↔
      k ∈ st.hosts ∨ (hostValue T raw = some k ∧ k ≠ "*") := by
  obtain ⟨hcur, _⟩ := hinv
  unfold parseStep hostValue
  cases hp : parseLine T raw with
  | none => simp
  | some kv =>
    obtain ⟨key, value⟩ := kv
    simp only
    split_ifs with h1 h2 h3 h4 h5 h6 h7
    all_goals simp_all [AList.mem_insert]
    constructor
    · rintro (h | h)
      · subst h; exact Or.inr ⟨rfl, h1⟩
      · exact Or.inl h
    · rintro (h | ⟨h, _⟩)
      · exact Or.inr h
      · exact Or.inl h.symm

theorem mem_parseFoldl (T : Lib) (lines : List String) (st : ParseState) (hinv : ParseInv st)
    (k : String) :
    k ∈ (lines.foldl (parseStep T) st).hosts ↔
      k ∈ st.hosts ∨ (k ∈ hostValues T lines ∧ k ≠ "*") := by
  induction lines generalizing st with
  | nil => simp [hostValues]
  | cons l ls ih =>
    rw [List.foldl_cons, ih _ (parseInv_step T st l hinv), mem_parseStep T st l hinv]
    simp only [hostValues, List.filterMap_cons]
    cases hv : hostValue T l with
    | none => simp
    | some v =>
      simp only [List.mem_cons, Option.some.injEq]
      constructor
      · rintro ((h | ⟨h, h2⟩) | ⟨h, h2⟩)
        · exact Or.inl h
        · exact Or.inr ⟨Or.inl h.symm, h2⟩
        · exact Or.inr ⟨Or.inr h, h2⟩
      · rintro (h | ⟨h | h, h2⟩)
        · exact Or.inl (Or.inl h)
        · exact Or.inl (Or.inr ⟨h.symm, h2⟩)
        · exact Or.inr ⟨h, h2⟩

theorem parseInv_parseLines (T : Lib) (lines : List String) : ParseInv (parseLines T lines) :=
  parseInv_foldl T lines _ parseInv_init

theorem mem_parseLines (T : Lib) (lines : List String) (k : String) :
    k ∈ (parseLines T lines).hosts ↔ (k ∈ hostValues T lines ∧ k ≠ "*") := by
  unfold parseLines
  rw [mem_parseFoldl T lines _ parseInv_init]
  simp

theorem sortHosts_perm (l : List Host) : (sortHosts l).Perm l :=
  List.perm_insertionSort _ l

/-- Sorting by a string key with the comparison of Go leaves the keys in
ascending order. -/
theorem insertionSort_key_sorted {α : Type} (f : α → String) (l : List α) :
    (l.insertionSort (fun x y => strLt (f y) (f x) = false)).Pairwise
      (fun x y => f x ≤ f y) := by
  have h : (fun x y : α => strLt (f y) (f x) = false) = (fun x y => f x ≤ f y) := by
    funext x y
    exact propext (strLt_eq_false_iff _ _)
  haveI : IsTotal α (fun x y : α => strLt (f y) (f x) = false) := by
    rw [h]; exact ⟨fun a b => le_total _ _⟩
  haveI : IsTrans α (fun x y : α => strLt (f y) (f x) = false) := by
    rw [h]; exact ⟨fun a b c => le_trans⟩
  have := List.sorted_insertionSort (fun x y : α => strLt (f y) (f x) = false) l
  rw [← h]
  exact this

theorem sortHosts_sorted (l : List Host) :
    (sortHosts l).Pairwise (fun x y => x.Alias ≤ y.Alias) :=
  insertionSort_key_sorted Host.Alias l

/-- The aliases of the values of a map that satisfies the invariant are its keys. -/
theorem aliases_eq_keys (hosts : HostMap)
    (hal : ∀ k h, hosts.lookup k = some h → h.Alias = k) :
    (hosts.entries.map (fun e => e.2)).map Host.Alias = hosts.keys := by
  unfold AList.keys List.keys
  rw [List.map_map]
  apply List.map_congr_left
  intro e he
  have : hosts.lookup e.1 = some e.2 := by
    have h2 : e.2 ∈ hosts.lookup e.1 := AList.mem_lookup_iff.mpr he
    exact Option.mem_def.mp h2
  exact hal _ _ this

theorem hostsOfMap_aliases_perm (hosts : HostMap)
    (hal : ∀ k h, hosts.lookup k = some h → h.Alias = k) :
    ((hostsOfMap hosts).map Host.Alias).Perm hosts.keys := by
  rw [← aliases_eq_keys hosts hal]
  exact (sortHosts_perm _).map _

theorem hostsOfMap_strictly_sorted (hosts : HostMap)
    (hal : ∀ k h, hosts.lookup k = some h → h.Alias = k) :
    ((hostsOfMap hosts).map Host.Alias).Pairwise (· < ·) := by
  have hp := hostsOfMap_aliases_perm hosts hal
  have hnd : ((hostsOfMap hosts).map Host.Alias).Nodup := hp.nodup_iff.mpr hosts.keys_nodup
  have hs : ((hostsOfMap hosts).map Host.Alias).Pairwise (· ≤ ·) := by
    rw [List.pairwise_map]
    exact sortHosts_sorted _
  have := hs.and hnd
  exact this.imp (fun ⟨h1, h2⟩ => lt_of_le_of_ne h1 h2)

theorem hostsOfMap_parseLines_mem (T : Lib) (lines : List String) (a : String) :
    a ∈ (hostsOfMap (parseLines T lines).hosts).map Host.Alias ↔
      (a ∈ hostValues T lines ∧ a ≠ "*") := by
  have hinv := parseInv_parseLines T lines
  rw [(hostsOfMap_aliases_perm _ hinv.2).mem_iff, ← AList.mem_keys]
  exact mem_parseLines T lines a

theorem hostsOfMap_parseLines_length (T : Lib) (lines : List String) :
    (hostsOfMap (parseLines T lines).hosts).length =
      ((hostValues T lines).filter (fun v => v ≠ "*")).dedup.length := by
  have hinv := parseInv_parseLines T lines
  have hp := hostsOfMap_aliases_perm _ hinv.2
  have h1 : (hostsOfMap (parseLines T lines).hosts).length =
      (parseLines T lines).hosts.keys.length := by
    rw [← hp.length_eq, List.length_map]
  rw [h1]
  apply List.Perm.length_eq
  rw [List.perm_ext_iff_of_nodup (AList.keys_nodup _) (List.nodup_dedup _)]
  intro a
  rw [← AList.mem_keys, mem_parseLines]
  simp [List.mem_filter]

/-- C1. For every configuration that opens and scans without error,
`GetSSHHostsFromPath` succeeds with a list whose aliases are exactly the values
other than `*` of the Host directives, one entry per distinct value (the list is
strictly ascending in the alias, so no alias is repeated, and its length is the
number of distinct non-wildcard values); when every Host directive is `Host *`
the list is empty. -/
theorem getSSHHostsFromPath_one_entry_per_host_value (T : Lib) (fs : FileSystem)
    (path : String) (lines : List String)
    (hopen : fs path = .ok { lines := lines, err := none }) :
    ∃ r, GetSSHHostsFromPath T fs path = .ok r ∧
      (∀ a, a ∈ r.map Host.Alias ↔ (a ∈ hostValues T lines ∧ a ≠ "*")) ∧
      (r.map Host.Alias).Pairwise (· < ·) ∧
      r.length = ((hostValues T lines).filter (fun v => v ≠ "*")).dedup.length ∧
      ((∀ v ∈ hostValues T lines, v = "*") → r = []) := by
  have hinv := parseInv_parseLines T lines
  refine ⟨hostsOfMap (parseLines T lines).hosts, ?_, ?_, ?_, ?_, ?_⟩
  · simp [GetSSHHostsFromPath, hopen, parseSSHConfig]
  · exact hostsOfMap_parseLines_mem T lines
  · exact hostsOfMap_strictly_sorted _ hinv.2
  · exact hostsOfMap_parseLines_length T lines
  · intro hall
    cases hr : hostsOfMap (parseLines T lines).hosts with
    | nil => rfl
    | cons x xs =>
      have hx : x.Alias ∈ (hostsOfMap (parseLines T lines).hosts).map Host.Alias := by
        rw [hr]; simp
      rw [hostsOfMap_parseLines_mem] at hx
      exact absurd (hall _ hx.1) hx.2

/-- Witness for C1: the configuration of `TestGetSSHHosts`. -/
theorem getSSHHostsFromPath_one_entry_per_host_value_witness :
    ((fun _ => .ok { lines := testConfig, err := none } : FileSystem) "config" =
        .ok { lines := testConfig, err := none }) ∧
    ∃ r, GetSSHHostsFromPath asciiLib (fun _ => .ok { lines := testConfig, err := none })
        "config" = .ok r ∧
      (∀ a, a ∈ r.map Host.Alias ↔ (a ∈ hostValues asciiLib testConfig ∧ a ≠ "*")) ∧
      (r.map Host.Alias).Pairwise (· < ·) ∧
      r.length = ((hostValues asciiLib testConfig).filter (fun v => v ≠ "*")).dedup.length ∧
      ((∀ v ∈ hostValues asciiLib testConfig, v = "*") → r = []) :=
  ⟨rfl, getSSHHostsFromPath_one_entry_per_host_value asciiLib _ "config" testConfig rfl⟩

/-- The run of `TestGetSSHHosts`: the three hosts, in order. -/
theorem testGetSSHHosts :
    GetSSHHostsFromPath asciiLib (fileWith testConfig) "config" =
      .ok [{ Alias := "server1", HostName := "192.168.1.100" },
           { Alias := "server2", HostName := "example.com" },
           { Alias := "server3", HostName := "test.com" }] := by
  decide

/-- C2, the code at the failing input: a `HostName` directive in a wildcard block
that follows the block of `web` replaces the hostname of `web`, whose own block
says `10.0.0.1`. -/
theorem parseSSHConfig_wildcard_block_overwrites :
    GetSSHHostsFromPath asciiLib (fileWith wildcardAfterHost) "config" =
      .ok [{ Alias := "web", HostName := "fallback.example.com" }] := by
  decide

/-! ### The hostname of an entry -/

theorem fieldsAux_ne_empty (cs cur : List Char) :
    ∀ f ∈ fieldsAux cs cur, f.data ≠ [] := by
  induction cs generalizing cur with
  | nil =>
    intro f hf
    by_cases hc : cur = []
    · simp [fieldsAux, hc] at hf
    · simp only [fieldsAux, hc, if_false, List.mem_singleton] at hf
      subst hf
      simpa using hc
  | cons c cs ih =>
    intro f hf
    rw [fieldsAux] at hf
    split_ifs at hf with h1 h2
    · exact ih [] f hf
    · rcases List.mem_cons.mp hf with h | h
      · subst h
        simpa using h2
      · exact ih [] f h
    · exact ih (c :: cur) f hf

theorem join_data (p : String) (rest : List String) (sep : String) :
    ∃ t, (Join (p :: rest) sep).data = p.data ++ t := by
  cases rest with
  | nil => exact ⟨[], by simp [Join]⟩
  | cons q qs =>
    exact ⟨sep.data ++ (Join (q :: qs) sep).data, by simp [Join, String.data_append]⟩

/-- The value of a directive is never the empty string. -/
theorem parseLine_value_ne_empty (T : Lib) (raw key value : String)
    (h : parseLine T raw = some (key, value)) : value ≠ "" := by
  unfold parseLine at h
  simp only at h
  split_ifs at h
  cases hf : Fields (TrimSpace raw) with
  | nil => rw [hf] at h; simp at h
  | cons k ks =>
    cases ks with
    | nil => rw [hf] at h; simp at h
    | cons p rest =>
      rw [hf] at h
      simp only [Option.some.injEq, Prod.mk.injEq] at h
      have hp : p.data ≠ [] := by
        apply fieldsAux_ne_empty (TrimSpace raw).data [] p
        show p ∈ Fields (TrimSpace raw)
        rw [hf]; simp
      obtain ⟨t, ht⟩ := join_data p rest " "
      intro hv
      rw [h.2, hv] at ht
      cases hpd : p.data with
      | nil => exact hp hpd
      | cons c cs => rw [hpd] at ht; simp at ht

theorem parseStep_newHost (T : Lib) (st : ParseState) (raw a : String)
    (h : hostValue T raw = some a) (hne : a ≠ "*") :
    parseStep T st raw =
      { hosts := st.hosts.insert a { Alias := a, HostName := "" }, currentHost := a } := by
  unfold hostValue at h
  unfold parseStep
  cases hp : parseLine T raw with
  | none => rw [hp] at h; simp at h
  | some kv =>
    obtain ⟨key, value⟩ := kv
    rw [hp] at h
    simp only at h ⊢
    by_cases hk : key = "host"
    · simp only [hk, if_true, Option.some.injEq] at h
      subst h
      simp [hk, hne]
    · simp [hk] at h

/-- Inside a block (no line starts a new entry) the cursor stays on the alias and
its hostname follows the `HostName` directives, the last one winning. -/
theorem parseFold_block (T : Lib) (body : List String) (st : ParseState) (a h0 : String)
    (hcur : st.currentHost = a) (ha : a ≠ "")
    (hlook : st.hosts.lookup a = some { Alias := a, HostName := h0 })
    (hbody : ∀ l ∈ body, isNewHostLine T l = false) :
    (body.foldl (parseStep T) st).currentHost = a ∧
    (body.foldl (parseStep T) st).hosts.lookup a =
      some { Alias := a, HostName := (lastHostName T body).getD h0 } := by
  induction body generalizing st h0 with
  | nil => exact ⟨hcur, by simpa [lastHostName, lastValueOf] using hlook⟩
  | cons l ls ih =>
    have hl : isNewHostLine T l = false := hbody l (by simp)
    have hls : ∀ x ∈ ls, isNewHostLine T x = false := fun x hx => hbody x (by simp [hx])
    rw [List.foldl_cons]
    unfold isNewHostLine hostValue at hl
    cases hp : parseLine T l with
    | none =>
      have hstep : parseStep T st l = st := by simp [parseStep, hp]
      rw [hstep]
      have := ih st h0 hcur hlook hls
      simpa [lastHostName, hp] using this
    | some kv =>
      obtain ⟨key, value⟩ := kv
      rw [hp] at hl
      simp only at hl
      have hnot : ¬ (key = "host" ∧ value ≠ "*") := by
        rintro ⟨hk, hv⟩
        simp [hk, hv] at hl
      by_cases hk : key = "hostname"
      · have hstep : parseStep T st l =
            { st with hosts := st.hosts.insert a { Alias := a, HostName := value } } := by
          have hkh : ¬ key = "host" := by rw [hk]; decide
          have hlook2 : st.hosts.lookup st.currentHost = some { Alias := a, HostName := h0 } := by
            rw [hcur]; exact hlook
          simp [parseStep, hp, hk, hcur, ha, hlook2]
        rw [hstep]
        have := ih { st with hosts := st.hosts.insert a { Alias := a, HostName := value } }
          value hcur (AList.lookup_insert _) hls
        refine ⟨this.1, ?_⟩
        rw [this.2]
        simp only [lastHostName, List.filterMap_cons, hp, lastValueOf, hk]
        cases lastValueOf (List.filterMap (parseLine T) ls) "hostname" <;> simp
      · have hstep : parseStep T st l = st := by
          unfold parseStep
          rw [hp]
          simp only [hnot, if_false, hk]
          split_ifs <;> rfl
        rw [hstep]
        have := ih st h0 hcur hlook hls
        refine ⟨this.1, ?_⟩
        rw [this.2]
        simp only [lastHostName, List.filterMap_cons, hp, lastValueOf, hk, if_false]
        cases lastValueOf (List.filterMap (parseLine T) ls) "hostname" <;> simp

theorem parseStep_other (T : Lib) (st : ParseState) (raw a : String)
    (hcur : st.currentHost ≠ a) (hraw : hostValue T raw ≠ some a) :
    (parseStep T st raw).currentHost ≠ a ∧
    (parseStep T st raw).hosts.lookup a = st.hosts.lookup a := by
  unfold hostValue at hraw
  unfold parseStep
  cases hp : parseLine T raw with
  | none => exact ⟨hcur, rfl⟩
  | some kv =>
    obtain ⟨key, value⟩ := kv
    rw [hp] at hraw
    simp only at hraw ⊢
    split_ifs with h1 h2 h3
    · have hva : value ≠ a := by
        intro hv
        simp [h1.1, hv] at hraw
      exact ⟨hva, AList.lookup_insert_ne (fun h => hva h.symm)⟩
    · exact ⟨hcur, AList.lookup_insert_ne (fun h => hcur h.symm)⟩
    · exact ⟨hcur, rfl⟩
    · exact ⟨hcur, rfl⟩

theorem parseFold_other (T : Lib) (rest : List String) (st : ParseState) (a : String)
    (hcur : st.currentHost ≠ a) (hrest : ∀ l ∈ rest, hostValue T l ≠ some a) :
    (rest.foldl (parseStep T) st).hosts.lookup a = st.hosts.lookup a := by
  induction rest generalizing st with
  | nil => rfl
  | cons l ls ih =>
    have h := parseStep_other T st l a hcur (hrest l (by simp))
    rw [List.foldl_cons, ih _ h.1 (fun x hx => hrest x (by simp [hx])), h.2]

/-- What the loop of `parseSSHConfig` stores for an alias: the hostname of the
last `HostName` directive between the last Host line of that alias and the next
Host line with a value other than `*`, and the empty string without one.  Lines
of a `Host *` block that follows belong to that range. -/
theorem parseLines_hostName (T : Lib) (pre body rest : List String) (hostLine a : String)
    (hhost : hostValue T hostLine = some a) (hne : a ≠ "*")
    (hbody : ∀ l ∈ body, isNewHostLine T l = false)
    (hrest : ∀ l ∈ rest, hostValue T l ≠ some a)
    (hnext : ∀ l, rest.head? = some l → isNewHostLine T l = true) :
    (parseLines T (pre ++ hostLine :: body ++ rest)).hosts.lookup a =
      some { Alias := a, HostName := (lastHostName T body).getD "" } := by
  have ha : a ≠ "" := by
    unfold hostValue at hhost
    cases hp : parseLine T hostLine with
    | none => rw [hp] at hhost; simp at hhost
    | some kv =>
      obtain ⟨key, value⟩ := kv
      rw [hp] at hhost
      simp only at hhost
      split_ifs at hhost
      simp only [Option.some.injEq] at hhost
      rw [← hhost]
      exact parseLine_value_ne_empty T hostLine key value hp
  unfold parseLines
  rw [List.append_assoc, List.foldl_append, List.cons_append, List.foldl_cons,
    List.foldl_append, parseStep_newHost T _ hostLine a hhost hne]
  have hb := parseFold_block T body
    { hosts := (List.foldl (parseStep T) { hosts := ∅, currentHost := "" } pre).hosts.insert a
        { Alias := a, HostName := "" }, currentHost := a } a "" rfl ha
    (AList.lookup_insert _) hbody
  cases rest with
  | nil => exact hb.2
  | cons r rs =>
    have hr : isNewHostLine T r = true := hnext r rfl
    have hra : hostValue T r ≠ some a := hrest r (by simp)
    unfold isNewHostLine at hr
    cases hv : hostValue T r with
    | none => rw [hv] at hr; simp at hr
    | some b =>
      rw [hv] at hr
      have hbne : b ≠ "*" := by simpa using hr
      have hba : b ≠ a := by
        intro h
        rw [hv, h] at hra
        exact hra rfl
      rw [List.foldl_cons, parseStep_newHost T _ r b hv hbne,
        parseFold_other T rs _ a hba (fun x hx => hrest x (by simp [hx])),
        AList.lookup_insert_ne (fun h => hba h.symm)]
      exact hb.2

/-- An entry is in the returned list exactly when the map stores it under its alias. -/
theorem mem_hostsOfMap (hosts : HostMap)
    (hal : ∀ k h, hosts.lookup k = some h → h.Alias = k) (h : Host) :
    h ∈ hostsOfMap hosts ↔ hosts.lookup h.Alias = some h := by
  unfold hostsOfMap
  rw [(sortHosts_perm _).mem_iff, List.mem_map, ← Option.mem_def, AList.mem_lookup_iff]
  constructor
  · rintro ⟨⟨k, v⟩, he, rfl⟩
    have hk : v.Alias = k := hal k v (Option.mem_def.mp (AList.mem_lookup_iff.mpr he))
    simp only
    rw [hk]
    exact he
  · intro he
    exact ⟨⟨h.Alias, h⟩, he, rfl⟩

/-- The entry that `GetSSHHostsFromPath` returns for the last block of an alias:
its hostname is that of the last `HostName` directive up to the next Host line
with a value other than `*`. -/
theorem getSSHHostsFromPath_hostName (T : Lib) (fs : FileSystem) (path : String)
    (pre body rest : List String) (hostLine a : String)
    (hopen : fs path = .ok { lines := pre ++ hostLine :: body ++ rest, err := none })
    (hhost : hostValue T hostLine = some a) (hne : a ≠ "*")
    (hbody : ∀ l ∈ body, isNewHostLine T l = false)
    (hrest : ∀ l ∈ rest, hostValue T l ≠ some a)
    (hnext : ∀ l, rest.head? = some l → isNewHostLine T l = true) :
    ∃ r, GetSSHHostsFromPath T fs path = .ok r ∧
      ∀ h ∈ r, h.Alias = a → h.HostName = (lastHostName T body).getD "" := by
  refine ⟨hostsOfMap (parseLines T (pre ++ hostLine :: body ++ rest)).hosts, ?_, ?_⟩
  · simp [GetSSHHostsFromPath, hopen, parseSSHConfig]
  · intro h hmem ha
    rw [mem_hostsOfMap _ (parseInv_parseLines T _).2, ha,
      parseLines_hostName T pre body rest hostLine a hhost hne hbody hrest hnext] at hmem
    simp only [Option.some.injEq] at hmem
    rw [← hmem]

/-- The order in which the entries of the map are visited does not matter: two
arrangements of entries with pairwise distinct keys sort to the same list. -/
theorem insertionSort_key_perm {α : Type} (f : α → String) (l₁ l₂ : List α)
    (hp : l₁.Perm l₂) (hnd : (l₁.map f).Nodup) :
    l₁.insertionSort (fun x y => strLt (f y) (f x) = false) =
      l₂.insertionSort (fun x y => strLt (f y) (f x) = false) := by
  have strict : ∀ l : List α, (l.map f).Nodup →
      (l.insertionSort (fun x y => strLt (f y) (f x) = false)).Pairwise
        (fun x y => f x < f y) := by
    intro l hl
    have hperm := List.perm_insertionSort (fun x y => strLt (f y) (f x) = false) l
    have hnd2 : ((l.insertionSort (fun x y => strLt (f y) (f x) = false)).map f).Nodup :=
      (hperm.map f).nodup_iff.mpr hl
    have hle := insertionSort_key_sorted f l
    have hne : (l.insertionSort (fun x y => strLt (f y) (f x) = false)).Pairwise
        (fun x y => f x ≠ f y) := List.pairwise_map.mp hnd2
    exact (hle.and hne).imp (fun ⟨h1, h2⟩ => lt_of_le_of_ne h1 h2)
  haveI : IsAntisymm α (fun x y => f x < f y) :=
    ⟨fun a b h1 h2 => absurd h1 (lt_asymm h2)⟩
  have h1 := strict l₁ hnd
  have h2 := strict l₂ ((hp.map f).nodup_iff.mp hnd)
  have hperm : (l₁.insertionSort (fun x y => strLt (f y) (f x) = false)).Perm
      (l₂.insertionSort (fun x y => strLt (f y) (f x) = false)) :=
    ((List.perm_insertionSort _ l₁).trans hp).trans (List.perm_insertionSort _ l₂).symm
  exact List.eq_of_perm_of_sorted hperm h1 h2

/-! ### Lines that are ignored -/

theorem trimRight_split (cs : List Char) :
    ∃ sp, cs = trimRight cs ++ sp ∧ ∀ c ∈ sp, isSpace c = true := by
  refine ⟨(cs.reverse.takeWhile isSpace).reverse, ?_, ?_⟩
  · unfold trimRight
    rw [← List.reverse_append, List.takeWhile_append_dropWhile, List.reverse_reverse]
  · intro c hc
    exact List.mem_takeWhile_imp (List.mem_reverse.mp hc)

theorem trimRight_cons (c : Char) (cs : List Char) (hc : isSpace c = false) :
    ∃ t, trimRight (c :: cs) = c :: t := by
  obtain ⟨sp, hsplit, hsp⟩ := trimRight_split (c :: cs)
  cases ht : trimRight (c :: cs) with
  | nil =>
    rw [ht, List.nil_append] at hsplit
    have := hsp c (by rw [← hsplit]; simp)
    rw [hc] at this
    exact absurd this (by simp)
  | cons d t =>
    rw [ht, List.cons_append] at hsplit
    injection hsplit with h1 _
    exact ⟨t, by rw [h1]⟩

theorem fieldsAux_spaces (sp cur : List Char) (hsp : ∀ c ∈ sp, isSpace c = true) :
    fieldsAux sp cur = fieldsAux [] cur := by
  induction sp generalizing cur with
  | nil => rfl
  | cons c cs ih =>
    have hc : isSpace c = true := hsp c (by simp)
    have hcs : ∀ d ∈ cs, isSpace d = true := fun d hd => hsp d (by simp [hd])
    by_cases hcur : cur = []
    · simp [fieldsAux, hc, hcur, ih [] hcs]
    · simp [fieldsAux, hc, hcur, ih [] hcs]

theorem fieldsAux_append_spaces (xs sp cur : List Char) (hsp : ∀ c ∈ sp, isSpace c = true) :
    fieldsAux (xs ++ sp) cur = fieldsAux xs cur := by
  induction xs generalizing cur with
  | nil => simpa using fieldsAux_spaces sp cur hsp
  | cons c cs ih => simp [fieldsAux, ih]

theorem fieldsAux_dropWhile (cs : List Char) :
    fieldsAux (cs.dropWhile isSpace) [] = fieldsAux cs [] := by
  induction cs with
  | nil => rfl
  | cons c cs ih =>
    by_cases hc : isSpace c = true
    · simp [List.dropWhile, fieldsAux, hc, ih]
    · simp [List.dropWhile, hc]

/-- Trimming a line does not change its fields. -/
theorem fields_trimSpace (s : String) : Fields (TrimSpace s) = Fields s := by
  unfold Fields TrimSpace
  obtain ⟨sp, hsplit, hsp⟩ := trimRight_split (s.data.dropWhile isSpace)
  rw [← fieldsAux_dropWhile s.data]
  conv_rhs => rw [hsplit]
  rw [fieldsAux_append_spaces _ _ _ hsp]

/-- A trimmed comment line starts with `#`. -/
theorem startsWith_hash_of_comment (s : String) (h : isCommentLine s = true) :
    startsWith (TrimSpace s) "#" = true := by
  unfold isCommentLine at h
  unfold startsWith TrimSpace
  cases hd : s.data.dropWhile isSpace with
  | nil => rw [hd] at h; simp at h
  | cons c cs =>
    rw [hd] at h
    simp only [List.head?_cons, decide_eq_true_eq, Option.some.injEq] at h
    subst h
    obtain ⟨t, ht⟩ := trimRight_cons (Char.ofNat 35) cs (by decide)
    rw [ht]
    simp [List.isPrefixOf]

/-- A comment line, and a line with fewer than two fields, is ignored by the loop
bodies of `parseSSHConfig` and `getHostDetails`. -/
theorem parseLine_eq_none (T : Lib) (raw : String)
    (h : isCommentLine raw = true ∨ (Fields raw).length < 2) : parseLine T raw = none := by
  unfold parseLine
  rcases h with h | h
  · simp [startsWith_hash_of_comment raw h]
  · simp only [fields_trimSpace]
    split_ifs
    · rfl
    · match hf : Fields raw with
      | [] => rfl
      | [_] => rfl
      | _ :: _ :: _ => rw [hf] at h; simp only [List.length_cons] at h; omega

theorem parseLines_insert_ignored (T : Lib) (pre post : List String) (raw : String)
    (h : parseLine T raw = none) :
    parseLines T (pre ++ raw :: post) = parseLines T (pre ++ post) := by
  unfold parseLines
  rw [List.foldl_append, List.foldl_append, List.foldl_cons]
  have : parseStep T (List.foldl (parseStep T) { hosts := ∅, currentHost := "" } pre) raw =
      List.foldl (parseStep T) { hosts := ∅, currentHost := "" } pre := by
    simp [parseStep, h]
  rw [this]

/-- C3. Inserting, at any position of a configuration, a comment line or a line
with fewer than two white-space separated fields changes neither the result of
`parseSSHConfig` nor that of `GetSSHHostsFromPath`. -/
theorem parseSSHConfig_insert_ignored_line (T : Lib) (pre post : List String) (raw : String)
    (err : Option String) (path : String)
    (h : isCommentLine raw = true ∨ (Fields raw).length < 2) :
    parseSSHConfig T { lines := pre ++ raw :: post, err := err } =
        parseSSHConfig T { lines := pre ++ post, err := err } ∧
      GetSSHHostsFromPath T (fun _ => .ok { lines := pre ++ raw :: post, err := err }) path =
        GetSSHHostsFromPath T (fun _ => .ok { lines := pre ++ post, err := err }) path := by
  have hl := parseLines_insert_ignored T pre post raw (parseLine_eq_none T raw h)
  constructor
  · simp only [parseSSHConfig, hl]
  · simp only [GetSSHHostsFromPath, parseSSHConfig, hl]

/-- Witness for C3: a comment inserted after the first line of a configuration. -/
theorem parseSSHConfig_insert_ignored_line_witness :
    (isCommentLine "  # note" = true ∨ (Fields "  # note").length < 2) ∧
    (parseSSHConfig asciiLib { lines := ["Host a"] ++ "  # note" :: ["HostName b"], err := none } =
        parseSSHConfig asciiLib { lines := ["Host a"] ++ ["HostName b"], err := none } ∧
      GetSSHHostsFromPath asciiLib
          (fun _ => .ok { lines := ["Host a"] ++ "  # note" :: ["HostName b"], err := none })
          "config" =
        GetSSHHostsFromPath asciiLib
          (fun _ => .ok { lines := ["Host a"] ++ ["HostName b"], err := none }) "config") :=
  ⟨Or.inl (by decide),
   parseSSHConfig_insert_ignored_line asciiLib ["Host a"] ["HostName b"] "  # note" none
     "config" (Or.inl (by decide))⟩

/-- C4. When the file cannot be opened `GetSSHHostsFromPath` returns the open
error and no list; when it opens and scans without error the call succeeds, and
the list is empty exactly when the file has no Host directive other than `Host *`. -/
theorem getSSHHostsFromPath_error_or_success (T : Lib) (fs : FileSystem) (path : String) :
    (∀ e, fs path = .error e →
        GetSSHHostsFromPath T fs path = .error (.openFile path e) ∧
        ∀ r, GetSSHHostsFromPath T fs path ≠ .ok r) ∧
    (∀ lines, fs path = .ok { lines := lines, err := none } →
        ∃ r, GetSSHHostsFromPath T fs path = .ok r ∧
          (r = [] ↔ ∀ v ∈ hostValues T lines, v = "*")) := by
  constructor
  · intro e he
    have h : GetSSHHostsFromPath T fs path = .error (.openFile path e) := by
      simp [GetSSHHostsFromPath, he]
    exact ⟨h, fun r hr => by rw [h] at hr; cases hr⟩
  · intro lines hl
    refine ⟨hostsOfMap (parseLines T lines).hosts, ?_, ?_⟩
    · simp [GetSSHHostsFromPath, hl, parseSSHConfig]
    · constructor
      · intro hr v hv
        by_contra hne
        have := (hostsOfMap_parseLines_mem T lines v).mpr ⟨hv, hne⟩
        rw [hr] at this
        simp at this
      · intro hall
        cases hr : hostsOfMap (parseLines T lines).hosts with
        | nil => rfl
        | cons x xs =>
          have hx : x.Alias ∈ (hostsOfMap (parseLines T lines).hosts).map Host.Alias := by
            rw [hr]; simp
          rw [hostsOfMap_parseLines_mem] at hx
          exact absurd (hall _ hx.1) hx.2

/-- Witness for C4: a path that does not open, and a file with a wildcard block only. -/
theorem getSSHHostsFromPath_error_or_success_witness :
    (GetSSHHostsFromPath asciiLib noFiles "/non/existent/path" =
        .error (.openFile "/non/existent/path" "no such file or directory") ∧
      ∀ r, GetSSHHostsFromPath asciiLib noFiles "/non/existent/path" ≠ .ok r) ∧
    (∃ r,
      GetSSHHostsFromPath asciiLib (fileWith ["Host *", "  User default"]) "config" = .ok r ∧
      (r = [] ↔ ∀ v ∈ hostValues asciiLib ["Host *", "  User default"], v = "*")) :=
  ⟨(getSSHHostsFromPath_error_or_success asciiLib noFiles "/non/existent/path").1 _ rfl,
   (getSSHHostsFromPath_error_or_success asciiLib (fileWith ["Host *", "  User default"])
      "config").2 _ rfl⟩

/-! ## The host detail lookup -/

theorem scanDetails_not_match (T : Lib) (target raw : String) (rest : List String)
    (details : DetailMap) (h : matchesTarget T target raw = false) :
    scanDetails T target (raw :: rest) false details = scanDetails T target rest false details := by
  unfold matchesTarget hostValue at h
  rw [scanDetails]
  cases hp : parseLine T raw with
  | none => rfl
  | some kv =>
    obtain ⟨key, value⟩ := kv
    rw [hp] at h
    simp only at h ⊢
    by_cases hk : key = "host"
    · simp only [hk, if_true] at h
      simp [hk, h]
    · simp [hk]

theorem scanDetails_match (T : Lib) (target raw : String) (rest : List String)
    (inHost : Bool) (details : DetailMap) (h : matchesTarget T target raw = true) :
    scanDetails T target (raw :: rest) inHost details = scanDetails T target rest true details := by
  unfold matchesTarget hostValue at h
  rw [scanDetails]
  cases hp : parseLine T raw with
  | none => rw [hp] at h; simp at h
  | some kv =>
    obtain ⟨key, value⟩ := kv
    rw [hp] at h
    simp only at h ⊢
    by_cases hk : key = "host"
    · simp only [hk, if_true] at h
      simp [hk, h]
    · simp [hk] at h

/-- Inside the block the loop records every directive that is not a Host
directive, and leaves at the first Host directive whose value does not contain
the target. -/
theorem scanDetails_inHost (T : Lib) (target : String) (lines : List String)
    (details : DetailMap) :
    (scanDetails T target lines true details).details =
      (directivesOf T (lines.takeWhile (fun raw => !isOtherHost T target raw))).foldl
        (fun m pair => m.insert pair.1 pair.2) details := by
  induction lines generalizing details with
  | nil => rfl
  | cons raw rest ih =>
    rw [scanDetails]
    cases hp : parseLine T raw with
    | none =>
      simp only
      rw [ih]
      simp [List.takeWhile, isOtherHost, hostValue, directivesOf, hp]
    | some kv =>
      obtain ⟨key, value⟩ := kv
      simp only
      by_cases hk : key = "host"
      · by_cases hc : Contains value target = true
        · simp only [hk, hc, and_self, if_true]
          rw [ih]
          simp [List.takeWhile, isOtherHost, hostValue, directivesOf, hp, hk, hc]
        · simp [List.takeWhile, isOtherHost, hostValue, directivesOf, hp, hk, hc]
      · simp only [hk, false_and, if_false, if_true]
        rw [ih]
        simp [List.takeWhile, isOtherHost, hostValue, directivesOf, hp, hk]

theorem blockToNextOtherHost_cons_match (T : Lib) (target raw : String) (rest : List String)
    (h : matchesTarget T target raw = true) :
    blockToNextOtherHost T target (raw :: rest) =
      rest.takeWhile (fun raw => !isOtherHost T target raw) := by
  simp [blockToNextOtherHost, afterFirstMatch, List.dropWhile, h]

theorem blockToNextOtherHost_cons_not_match (T : Lib) (target raw : String)
    (rest : List String) (h : matchesTarget T target raw = false) :
    blockToNextOtherHost T target (raw :: rest) = blockToNextOtherHost T target rest := by
  simp [blockToNextOtherHost, afterFirstMatch, List.dropWhile, h]

/-- The whole loop of `getHostDetails`: the map it builds holds the directives
between the first matching Host line and the next Host line that does not match. -/
theorem scanDetails_eq (T : Lib) (target : String) (lines : List String)
    (details : DetailMap) :
    (scanDetails T target lines false details).details =
      (directivesOf T (blockToNextOtherHost T target lines)).foldl
        (fun m pair => m.insert pair.1 pair.2) details := by
  induction lines with
  | nil => rfl
  | cons raw rest ih =>
    cases hm : matchesTarget T target raw with
    | true =>
      rw [scanDetails_match T target raw rest false details hm, scanDetails_inHost,
        blockToNextOtherHost_cons_match T target raw rest hm]
    | false =>
      rw [scanDetails_not_match T target raw rest details hm, ih,
        blockToNextOtherHost_cons_not_match T target raw rest hm]

theorem lookup_foldl_insert (pairs : List (String × String)) (details : DetailMap)
    (key : String) :
    (pairs.foldl (fun m pair => m.insert pair.1 pair.2) details).lookup key =
      match lastValueOf pairs key with
      | some w => some w
      | none => details.lookup key := by
  induction pairs generalizing details with
  | nil => rfl
  | cons p rest ih =>
    obtain ⟨k, v⟩ := p
    rw [List.foldl_cons, ih, lastValueOf]
    cases hl : lastValueOf rest key with
    | some w => rfl
    | none =>
      by_cases hk : k = key
      · subst hk
        simp [AList.lookup_insert]
      · have hk2 : key ≠ k := fun h => hk h.symm
        simp [hk, AList.lookup_insert_ne hk2]

/-- Inside the block the loop is left by `break` exactly when a later line is a
Host directive whose value does not contain the target. -/
theorem scanDetails_inHost_break (T : Lib) (target : String) (lines : List String)
    (details : DetailMap) :
    (scanDetails T target lines true details).leftByBreak =
      lines.any (isOtherHost T target) := by
  induction lines generalizing details with
  | nil => rfl
  | cons raw rest ih =>
    rw [scanDetails]
    cases hp : parseLine T raw with
    | none =>
      simp only
      rw [ih]
      simp [isOtherHost, hostValue, hp]
    | some kv =>
      obtain ⟨key, value⟩ := kv
      simp only
      by_cases hk : key = "host"
      · by_cases hc : Contains value target = true
        · simp only [hk, hc, and_self, if_true]
          rw [ih]
          simp [isOtherHost, hostValue, hp, hk, hc]
        · simp [isOtherHost, hostValue, hp, hk, hc]
      · simp only [hk, false_and, if_false, if_true]
        rw [ih]
        simp [isOtherHost, hostValue, hp, hk]

/-- The loop of `getHostDetails` is left by `break` exactly when, after the first
matching Host line, some Host line has a value that does not contain the target. -/
theorem scanDetails_break (T : Lib) (target : String) (lines : List String)
    (details : DetailMap) :
    (scanDetails T target lines false details).leftByBreak =
      (afterFirstMatch T target lines).any (isOtherHost T target) := by
  induction lines with
  | nil => rfl
  | cons raw rest ih =>
    cases hm : matchesTarget T target raw with
    | true =>
      rw [scanDetails_match T target raw rest false details hm, scanDetails_inHost_break]
      simp [afterFirstMatch, List.dropWhile, hm]
    | false =>
      rw [scanDetails_not_match T target raw rest details hm, ih]
      simp [afterFirstMatch, List.dropWhile, hm]

/-- What `getHostDetails` returns, key by key, when the scan meets no error:
the scanner has none, or the loop is left by `break` before it. -/
theorem getHostDetails_lookup_scanner (T : Lib) (os : OS) (host : Host) (home : String)
    (scanner : Scanner) (hhome : os.userHomeDir = .ok home)
    (hopen : os.openFile (T.pathJoin [home, ".ssh", "config"]) = .ok scanner)
    (hok : scanner.err = none ∨
      (scanDetails T host.Alias scanner.lines false ∅).leftByBreak = true) :
    ∃ d, getHostDetails T os host = .ok d ∧
      d.Alias = host.Alias ∧ d.HostName = host.HostName ∧
      ∀ key, d.Details.lookup key =
        lastValueOf (directivesOf T (blockToNextOtherHost T host.Alias scanner.lines)) key := by
  refine ⟨{ Alias := host.Alias, HostName := host.HostName,
            Details := (scanDetails T host.Alias scanner.lines false ∅).details },
    ?_, rfl, rfl, ?_⟩
  · rcases hok with h | h
    · simp only [getHostDetails, hhome, hopen, h]
      split_ifs <;> rfl
    · simp [getHostDetails, hhome, hopen, h]
  · intro key
    simp only
    rw [scanDetails_eq, lookup_foldl_insert]
    cases lastValueOf (directivesOf T (blockToNextOtherHost T host.Alias scanner.lines)) key <;>
      simp

/-- An error that ends the scan is returned when the loop runs to its end. -/
theorem getHostDetails_read_error (T : Lib) (os : OS) (host : Host) (home e : String)
    (lines : List String) (hhome : os.userHomeDir = .ok home)
    (hopen : os.openFile (T.pathJoin [home, ".ssh", "config"]) =
      .ok { lines := lines, err := some e })
    (hend : (scanDetails T host.Alias lines false ∅).leftByBreak = false) :
    getHostDetails T os host = .error (.read e) := by
  simp [getHostDetails, hhome, hopen, hend]

/-- What a successful `getHostDetails` returns, key by key. -/
theorem getHostDetails_lookup (T : Lib) (os : OS) (host : Host) (home : String)
    (lines : List String) (hhome : os.userHomeDir = .ok home)
    (hopen : os.openFile (T.pathJoin [home, ".ssh", "config"]) =
      .ok { lines := lines, err := none }) :
    ∃ d, getHostDetails T os host = .ok d ∧
      d.Alias = host.Alias ∧ d.HostName = host.HostName ∧
      ∀ key, d.Details.lookup key =
        lastValueOf (directivesOf T (blockToNextOtherHost T host.Alias lines)) key :=
  getHostDetails_lookup_scanner T os host home { lines := lines, err := none } hhome hopen
    (Or.inl rfl)

theorem contains_self (a : String) : Contains a a = true := by
  unfold Contains
  cases h : a.data with
  | nil => rfl
  | cons c cs => simp [containsAux]

theorem dropWhile_not_match_append (T : Lib) (target : String) (pre tail : List String)
    (raw : String) (hpre : ∀ l ∈ pre, matchesTarget T target l = false)
    (hraw : matchesTarget T target raw = true) :
    (pre ++ raw :: tail).dropWhile (fun l => !matchesTarget T target l) = raw :: tail := by
  induction pre with
  | nil => simp [List.dropWhile, hraw]
  | cons p ps ih =>
    have hp : matchesTarget T target p = false := hpre p (by simp)
    have hps : ∀ l ∈ ps, matchesTarget T target l = false := fun l hl => hpre l (by simp [hl])
    simp [List.dropWhile, hp]
    simpa using ih hps

theorem takeWhile_block (T : Lib) (target : String) (body rest : List String)
    (hbody : ∀ l ∈ body, hostValue T l = none)
    (hrest : ∀ l, rest.head? = some l → isOtherHost T target l = true) :
    (body ++ rest).takeWhile (fun l => !isOtherHost T target l) = body := by
  induction body with
  | nil =>
    cases rest with
    | nil => rfl
    | cons r rs => simp [List.takeWhile, hrest r rfl]
  | cons l ls ih =>
    have hl : isOtherHost T target l = false := by
      simp [isOtherHost, hbody l (by simp)]
    have hls : ∀ x ∈ ls, hostValue T x = none := fun x hx => hbody x (by simp [hx])
    simp only [List.cons_append, List.takeWhile, hl, Bool.not_false]
    exact congrArg (l :: ·) (ih hls)

/-- Where the lookup does report the hostname of the block of the host. For every
alias `a`, every value `h` and every configuration with a block `Host a` (the
Host line, then lines without a Host directive, up to the next Host directive or
the end) whose last HostName directive has the value `h`: if no Host directive
before the block has a value that contains `a` as a substring, and the Host
directive that ends the block has a value that does not contain `a`, then
`getHostDetails` for `a` succeeds and maps `HostName` to `h`. -/
theorem getHostDetails_hostName_of_block (T : Lib) (os : OS) (host : Host) (home h : String)
    (pre body rest : List String) (hostLine : String)
    (hhome : os.userHomeDir = .ok home)
    (hopen : os.openFile (T.pathJoin [home, ".ssh", "config"]) =
      .ok { lines := pre ++ hostLine :: body ++ rest, err := none })
    (hhost : hostValue T hostLine = some host.Alias)
    (hbody : ∀ l ∈ body, hostValue T l = none)
    (hlast : lastValueOf (directivesOf T body) "HostName" = some h)
    (hpre : ∀ l ∈ pre, matchesTarget T host.Alias l = false)
    (hrest : ∀ l, rest.head? = some l → isOtherHost T host.Alias l = true) :
    ∃ d, getHostDetails T os host = .ok d ∧ d.Details.lookup "HostName" = some h := by
  obtain ⟨d, hd, _, _, hlook⟩ := getHostDetails_lookup T os host home _ hhome hopen
  refine ⟨d, hd, ?_⟩
  have hm : matchesTarget T host.Alias hostLine = true := by
    simp [matchesTarget, hhost, contains_self]
  have hblock : blockToNextOtherHost T host.Alias (pre ++ hostLine :: body ++ rest) = body := by
    unfold blockToNextOtherHost afterFirstMatch
    rw [List.append_assoc, List.cons_append] at *
    rw [dropWhile_not_match_append T host.Alias pre (body ++ rest) hostLine hpre hm,
      List.tail_cons, takeWhile_block T host.Alias body rest hbody hrest]
  rw [hlook, hblock, hlast]

/-- The block of `server1` in the configuration of the tests, where no other
Host value contains `server1`: the lookup reports its hostname. -/
theorem getHostDetails_hostName_of_block_example :
    ((osWith testConfig).userHomeDir = .ok "/home/user" ∧
      (osWith testConfig).openFile (asciiLib.pathJoin ["/home/user", ".ssh", "config"]) =
        .ok { lines := testConfig.take 4 ++ "Host server1" ::
                ["    HostName 192.168.1.100", ""] ++ testConfig.drop 7, err := none } ∧
      hostValue asciiLib "Host server1" = some "server1" ∧
      (∀ l ∈ ["    HostName 192.168.1.100", ""], hostValue asciiLib l = none) ∧
      lastValueOf (directivesOf asciiLib ["    HostName 192.168.1.100", ""]) "HostName" =
        some "192.168.1.100" ∧
      (∀ l ∈ testConfig.take 4, matchesTarget asciiLib "server1" l = false) ∧
      (∀ l, (testConfig.drop 7).head? = some l → isOtherHost asciiLib "server1" l = true)) ∧
    ∃ d, getHostDetails asciiLib (osWith testConfig)
        { Alias := "server1", HostName := "192.168.1.100" } = .ok d ∧
      d.Details.lookup "HostName" = some "192.168.1.100" :=
  ⟨⟨rfl, by decide, by decide, by decide, by decide, by decide, by decide⟩,
   getHostDetails_hostName_of_block asciiLib (osWith testConfig)
     { Alias := "server1", HostName := "192.168.1.100" } "/home/user" "192.168.1.100"
     (testConfig.take 4) ["    HostName 192.168.1.100", ""] (testConfig.drop 7) "Host server1"
     rfl (by decide) (by decide) (by decide) (by decide) (by decide) (by decide)⟩

/-- C5, the code at the failing input: the configuration has the block
`Host server1` with `HostName 192.168.1.100`, ended by the Host directive
`Host server10`, yet the lookup for `server1` maps `HostName` to the value of
the block of `server10`: the test with `strings.Contains` comes before the
`break` and holds for `server10`, so the scan runs on into that block. -/
theorem getHostDetails_hostName_from_later_block :
    serverConfig = [] ++ "Host server1" :: ["    HostName 192.168.1.100"] ++
        ["Host server10", "    HostName 10.0.0.10"] ∧
      hostValue asciiLib "Host server1" = some "server1" ∧
      (∀ l ∈ ["    HostName 192.168.1.100"], hostValue asciiLib l = none) ∧
      lastValueOf (directivesOf asciiLib ["    HostName 192.168.1.100"]) "HostName" =
        some "192.168.1.100" ∧
      hostValue asciiLib "Host server10" = some "server10" ∧
      detailOf asciiLib (osWith serverConfig) { Alias := "server1", HostName := "192.168.1.100" }
        "HostName" = some "10.0.0.10" := by
  decide

/-- What the lookup records, for every configuration that scans without error
and every alias: the scan that has entered the first block whose Host value
contains the alias runs on to the next Host directive whose value does not
contain the alias, and the attributes returned are the directives other than
Host directives (canonical key, last value wins) in between. -/
theorem getHostDetails_records_until_other_host (T : Lib) (os : OS) (host : Host)
    (home : String) (lines : List String) (hhome : os.userHomeDir = .ok home)
    (hopen : os.openFile (T.pathJoin [home, ".ssh", "config"]) =
      .ok { lines := lines, err := none }) :
    ∃ d, getHostDetails T os host = .ok d ∧
      ∀ key, d.Details.lookup key =
        lastValueOf (directivesOf T (blockToNextOtherHost T host.Alias lines)) key := by
  obtain ⟨d, hd, _, _, hlook⟩ := getHostDetails_lookup T os host home lines hhome hopen
  exact ⟨d, hd, hlook⟩

/-- The lookup of `web` in a configuration with the blocks of `web` and `web2`. -/
theorem getHostDetails_records_until_other_host_example :
    ((osWith webConfig).userHomeDir = .ok "/home/user" ∧
      (osWith webConfig).openFile (asciiLib.pathJoin ["/home/user", ".ssh", "config"]) =
        .ok { lines := webConfig, err := none }) ∧
    ∃ d, getHostDetails asciiLib (osWith webConfig) { Alias := "web", HostName := "" } = .ok d ∧
      ∀ key, d.Details.lookup key =
        lastValueOf (directivesOf asciiLib (blockToNextOtherHost asciiLib "web" webConfig)) key :=
  ⟨⟨rfl, rfl⟩,
   getHostDetails_records_until_other_host asciiLib (osWith webConfig)
     { Alias := "web", HostName := "" } "/home/user" webConfig rfl rfl⟩

/-- C6, the code at the failing input: the lines between the first Host line
that contains `web` and the next Host line are the single line `User alice`,
yet the lookup for `web` also records `Port 2222`, a directive after the next
Host line: that line, `Host web2`, passes the test with `strings.Contains`,
which comes before the `break`, and the scan does not stop. -/
theorem getHostDetails_records_past_next_host :
    blockToNextHost asciiLib "web" webConfig = ["    User alice"] ∧
      lastValueOf (directivesOf asciiLib (blockToNextHost asciiLib "web" webConfig)) "Port" =
        none ∧
      detailOf asciiLib (osWith webConfig) { Alias := "web", HostName := "" } "Port" =
        some "2222" := by
  decide

/-- The config reader on the configuration of `server1` and `server10`: two
hosts, each with the hostname of its own block. -/
theorem getSSHHosts_serverConfig :
    GetSSHHostsFromPath asciiLib (fileWith serverConfig) "config" =
      .ok [{ Alias := "server1", HostName := "192.168.1.100" },
           { Alias := "server10", HostName := "10.0.0.10" }] := by
  decide

/-- The config reader on the configuration of `web` and `web2`: two hosts. -/
theorem getSSHHosts_webConfig :
    GetSSHHostsFromPath asciiLib (fileWith webConfig) "config" = .ok webHosts := by
  decide

/-- A scan that is left by `break` succeeds although an error ends the scan
later; the same error is returned when the loop runs to the end of the lines. -/
theorem getHostDetails_break_before_error :
    getHostDetails asciiLib
        (osWithScanner { lines := ["Host web", "    User alice", "Host db"],
                         err := some "read error" })
        { Alias := "web", HostName := "" } = .ok userOnlyDetails ∧
      getHostDetails asciiLib
        (osWithScanner { lines := ["Host web", "    User alice"], err := some "read error" })
        { Alias := "web", HostName := "" } = .error (.read "read error") :=
  ⟨rfl, rfl⟩

/-! ## The session window manager and the launcher -/

/-- C7, the code at the failing input: inside a session whose windows are
`0,bash` and `1,ssh:a,b`, the call for the host `a,b` does not select window 1;
it opens a new window `ssh:a,b`. -/
theorem sshWindow_comma_host_opens_duplicate :
    SSHWindow (tmuxOS [(0, "bash"), (1, "ssh:a,b")]) "a,b" =
      { actions := [.output listWindowsArgv, .lookPath "tmux",
                    .exec "/usr/bin/tmux" ["tmux", "new-window", "-n", "ssh:a,b", "ssh", "a,b"]],
        ending := .replaced } := by
  decide

/-- The same session and a host without a comma: window 1 is selected. -/
theorem sshWindow_selects_existing_example :
    SSHWindow (tmuxOS [(0, "bash"), (1, "ssh:web")]) "web" =
      { actions := [.output listWindowsArgv, .lookPath "tmux",
                    .exec "/usr/bin/tmux" ["tmux", "select-window", "-t", "1"]],
        ending := .replaced } := by
  decide

/-! ### Windows whose line parses -/

theorem splitAux_no_sep (sep : Char) (ys cur : List Char) (h : sep ∉ ys) :
    splitAux sep ys cur = [⟨cur.reverse ++ ys⟩] := by
  induction ys generalizing cur with
  | nil => simp [splitAux]
  | cons c cs ih =>
    have hc : c ≠ sep := fun hc => h (by simp [hc])
    have hcs : sep ∉ cs := fun hm => h (by simp [hm])
    simp [splitAux, hc, ih _ hcs]

theorem splitAux_at_sep (sep : Char) (xs ys cur : List Char) (h : sep ∉ xs) :
    splitAux sep (xs ++ sep :: ys) cur = ⟨cur.reverse ++ xs⟩ :: splitAux sep ys [] := by
  induction xs generalizing cur with
  | nil => simp [splitAux]
  | cons c cs ih =>
    have hc : c ≠ sep := fun hc => h (by simp [hc])
    have hcs : sep ∉ cs := fun hm => h (by simp [hm])
    simp [splitAux, hc, ih _ hcs]

/-- A line `<index>,ssh:<host>` splits into its two parts when neither the index
nor the host has a comma. -/
theorem split_window_line (index host : String)
    (hi : Char.ofNat 44 ∉ index.data) (hh : Char.ofNat 44 ∉ host.data) :
    Split (index ++ "," ++ ("ssh:" ++ host)) (Char.ofNat 44) = [index, "ssh:" ++ host] := by
  have hname : Char.ofNat 44 ∉ ("ssh:" ++ host).data := by
    simp only [String.data_append, List.mem_append, not_or]
    exact ⟨by decide, hh⟩
  unfold Split
  have hd : (index ++ "," ++ ("ssh:" ++ host)).data =
      index.data ++ Char.ofNat 44 :: ("ssh:" ++ host).data := by
    simp [String.data_append]
  rw [hd, splitAux_at_sep _ _ _ _ hi, splitAux_no_sep _ _ _ hname]
  simp only [List.reverse_nil, List.nil_append]

/-- The loop of `SSHWindow` selects the window of the first line that parses as
`<index>,ssh:<host>`, when `tmux` is found and `syscall.Exec` succeeds. -/
theorem windowLoop_selects (os : OS) (host index tmuxPath : String)
    (before after : List String)
    (hi : Char.ofNat 44 ∉ index.data) (hh : Char.ofNat 44 ∉ host.data)
    (hbefore : ∀ l ∈ before, ∀ i, Split l (Char.ofNat 44) ≠ [i, "ssh:" ++ host])
    (hlook : os.lookPath "tmux" = .ok tmuxPath)
    (hexec : os.exec tmuxPath ["tmux", "select-window", "-t", index] = none) :
    windowLoop os host (before ++ (index ++ "," ++ ("ssh:" ++ host)) :: after) =
      { actions := [.lookPath "tmux",
                    .exec tmuxPath ["tmux", "select-window", "-t", index]],
        ending := .replaced } := by
  induction before with
  | nil =>
    simp only [List.nil_append]
    rw [windowLoop, split_window_line index host hi hh]
    simp [hlook, hexec]
  | cons l ls ih =>
    have hl := hbefore l (by simp)
    have hls : ∀ x ∈ ls, ∀ i, Split x (Char.ofNat 44) ≠ [i, "ssh:" ++ host] :=
      fun x hx => hbefore x (by simp [hx])
    rw [List.cons_append, windowLoop]
    split
    · rename_i i name heq
      split_ifs with hn
      · subst hn
        exact absurd heq (hl i)
      · exact ih hls
    · exact ih hls

/-- For a host without a comma: inside a session, when the listing has a line
`<index>,ssh:<host>` and no earlier line that parses to that name, `SSHWindow`
replaces the process by `tmux select-window -t <index>` and opens no window. -/
theorem sshWindow_selects_existing (os : OS) (host index tmuxPath output : String)
    (before after : List String)
    (hsession : IsTmuxSession os = true)
    (hout : os.output listWindowsArgv = .ok output)
    (hlines : Split (TrimSpace output) (Char.ofNat 10) =
      before ++ (index ++ "," ++ ("ssh:" ++ host)) :: after)
    (hi : Char.ofNat 44 ∉ index.data) (hh : Char.ofNat 44 ∉ host.data)
    (hbefore : ∀ l ∈ before, ∀ i, Split l (Char.ofNat 44) ≠ [i, "ssh:" ++ host])
    (hlook : os.lookPath "tmux" = .ok tmuxPath)
    (hexec : os.exec tmuxPath ["tmux", "select-window", "-t", index] = none) :
    SSHWindow os host =
      { actions := [.output listWindowsArgv, .lookPath "tmux",
                    .exec tmuxPath ["tmux", "select-window", "-t", index]],
        ending := .replaced } := by
  unfold SSHWindow
  simp only [hsession, hout, hlines]
  rw [windowLoop_selects os host index tmuxPath before after hi hh hbefore hlook hexec]
  simp [Run.after]

/-- C8. `IsTmuxSession` is true exactly when the variable `TMUX` is not empty;
when it is false, `SSHWindow` performs no action and returns to its caller, for
every host, and the launcher, once the menu has returned a host and the SSH
binary is found, goes from the lookup of `ssh` straight to `syscall.Exec` of it. -/
theorem sshWindow_outside_session (os : OS) :
    (IsTmuxSession os = true ↔ os.getenv "TMUX" ≠ "") ∧
    (IsTmuxSession os = false →
      (∀ host, SSHWindow os host = { actions := [], ending := .returned }) ∧
      ∀ choice sshPath, choice ≠ "exit" → os.lookPath "ssh" = .ok sshPath →
        mainAfterMenu os (.ok choice) =
          match os.exec sshPath ["ssh", cleanHost choice] with
          | none =>
            { actions := [.connecting (cleanHost choice), .lookPath "ssh",
                          .exec sshPath ["ssh", cleanHost choice]],
              ending := .replaced }
          | some e =>
            { actions := [.connecting (cleanHost choice), .lookPath "ssh",
                          .exec sshPath ["ssh", cleanHost choice], .stderr (.execFailed e)],
              ending := .exited 1 }) := by
  constructor
  · simp [IsTmuxSession]
  · intro hno
    have hw : ∀ host, SSHWindow os host = { actions := [], ending := .returned } := by
      intro host
      simp [SSHWindow, hno]
    refine ⟨hw, ?_⟩
    intro choice sshPath hne hssh
    simp only [mainAfterMenu, hne, if_false, hssh, hw]
    cases os.exec sshPath ["ssh", cleanHost choice] <;> simp

/-- Witness for C8: a system outside a tmux session, and the selection `server1`. -/
theorem sshWindow_outside_session_witness :
    IsTmuxSession (osWith testConfig) = false ∧
    ((∀ host, SSHWindow (osWith testConfig) host = { actions := [], ending := .returned }) ∧
      ∀ choice sshPath, choice ≠ "exit" → (osWith testConfig).lookPath "ssh" = .ok sshPath →
        mainAfterMenu (osWith testConfig) (.ok choice) =
          match (osWith testConfig).exec sshPath ["ssh", cleanHost choice] with
          | none =>
            { actions := [.connecting (cleanHost choice), .lookPath "ssh",
                          .exec sshPath ["ssh", cleanHost choice]],
              ending := .replaced }
          | some e =>
            { actions := [.connecting (cleanHost choice), .lookPath "ssh",
                          .exec sshPath ["ssh", cleanHost choice], .stderr (.execFailed e)],
              ending := .exited 1 }) :=
  ⟨by decide, (sshWindow_outside_session (osWith testConfig)).2 (by decide)⟩

/-- The launcher outside a tmux session, on the selection `server1`. -/
theorem mainAfterMenu_outside_session_example :
    mainAfterMenu (osWith testConfig) (.ok "server1") =
      { actions := [.connecting "server1", .lookPath "ssh",
                    .exec "/usr/bin/ssh" ["ssh", "server1"]],
        ending := .replaced } := by
  decide

/-- C9. In every menu state, the keys `q` and `ctrl+c`, and the key `esc` when
no detail popup is shown, make `Update` finish the menu with `done = true`, the
choice `exit` and the command `tea.Quit`; for that choice the launcher performs
no action and exits with status 0, also in a run of `main` whose menu ends in
that model. -/
theorem update_quit_exits_zero {L : Type} (W : Toolkit L) (T : Lib) (os : OS) (m : Model L)
    (key : String) (hkey : key = "q" ∨ key = "ctrl+c" ∨ (key = "esc" ∧ m.viewing = false)) :
    (Update W T os m (.key key)).1.done = true ∧
    (Update W T os m (.key key)).1.choice = "exit" ∧
    (Update W T os m (.key key)).2 = .quit ∧
    mainAfterMenu os (.ok (Update W T os m (.key key)).1.choice) =
      { actions := [], ending := .exited 0 } ∧
    ∀ hosts, GetSSHHosts T os.userHomeDir os.openFile = .ok hosts → hosts ≠ [] →
      W.runProgram (NewModel W hosts) = .ok (Update W T os m (.key key)).1 →
      main T W os = { actions := [], ending := .exited 0 } := by
  have hu : Update W T os m (.key key) = ({ m with choice := "exit", done := true }, .quit) := by
    rcases hkey with h | h | ⟨h, hv⟩
    · subst h; simp [Update]
    · subst h; simp [Update]
    · subst h; simp [Update, hv]
  rw [hu]
  refine ⟨rfl, rfl, rfl, ?_, ?_⟩
  · simp [mainAfterMenu]
  · intro hosts hread hne hrun
    have hlen : hosts.length ≠ 0 := fun h => hne (List.length_eq_zero.mp h)
    simp [main, hread, hlen, RenderMenu, hrun, mainAfterMenu]

/-- Witness for C9: the key `esc` in the list view of the menu of `web` and `web2`. -/
theorem update_quit_exits_zero_witness :
    ("esc" = "q" ∨ "esc" = "ctrl+c" ∨
      ("esc" = "esc" ∧ (NewModel plainToolkit webHosts).viewing = false)) ∧
    (Update plainToolkit asciiLib (osWith webConfig) (NewModel plainToolkit webHosts)
        (.key "esc")).1.done = true ∧
    (Update plainToolkit asciiLib (osWith webConfig) (NewModel plainToolkit webHosts)
        (.key "esc")).1.choice = "exit" ∧
    GetSSHHosts asciiLib (osWith webConfig).userHomeDir (osWith webConfig).openFile =
      .ok webHosts ∧
    main asciiLib plainToolkit (osWith webConfig) = { actions := [], ending := .exited 0 } :=
  ⟨Or.inr (Or.inr ⟨rfl, rfl⟩),
   (update_quit_exits_zero plainToolkit asciiLib (osWith webConfig)
     (NewModel plainToolkit webHosts) "esc" (Or.inr (Or.inr ⟨rfl, rfl⟩))).1,
   (update_quit_exits_zero plainToolkit asciiLib (osWith webConfig)
     (NewModel plainToolkit webHosts) "esc" (Or.inr (Or.inr ⟨rfl, rfl⟩))).2.1,
   by decide,
   (update_quit_exits_zero plainToolkit asciiLib (osWith webConfig)
     (NewModel plainToolkit webHosts) "esc" (Or.inr (Or.inr ⟨rfl, rfl⟩))).2.2.2.2
     webHosts (by decide) (by decide) rfl⟩

/-! ## The detail popup -/

theorem length_le_utf8Size_go (cs : List Char) : cs.length ≤ String.utf8ByteSize.go cs := by
  induction cs with
  | nil => simp [String.utf8ByteSize.go]
  | cons c cs ih =>
    have := Char.utf8Size_pos c
    simp only [String.utf8ByteSize.go, List.length_cons]
    omega

/-- A string has at most as many characters as bytes. -/
theorem length_le_utf8ByteSize (s : String) : s.length ≤ s.utf8ByteSize :=
  length_le_utf8Size_go s.data

theorem foldl_maxKey_ge_init (l : List (String × String)) (m : Nat) :
    m ≤ l.foldl (fun m pair => if pair.1.utf8ByteSize > m then pair.1.utf8ByteSize else m) m := by
  induction l generalizing m with
  | nil => exact le_refl _
  | cons p ps ih =>
    rw [List.foldl_cons]
    refine le_trans ?_ (ih _)
    split_ifs <;> omega

theorem foldl_maxKey_ge_mem (l : List (String × String)) (m : Nat) (p : String × String)
    (hp : p ∈ l) :
    p.1.utf8ByteSize ≤
      l.foldl (fun m pair => if pair.1.utf8ByteSize > m then pair.1.utf8ByteSize else m) m := by
  induction l generalizing m with
  | nil => simp at hp
  | cons q qs ih =>
    rw [List.foldl_cons]
    rcases List.mem_cons.mp hp with h | h
    · subst h
      refine le_trans ?_ (foldl_maxKey_ge_init qs _)
      split_ifs <;> omega
    · exact ih _ h

theorem foldl_maxKey_attained (l : List (String × String)) (m : Nat) :
    l.foldl (fun m pair => if pair.1.utf8ByteSize > m then pair.1.utf8ByteSize else m) m = m ∨
    ∃ p ∈ l, p.1.utf8ByteSize =
      l.foldl (fun m pair => if pair.1.utf8ByteSize > m then pair.1.utf8ByteSize else m) m := by
  induction l generalizing m with
  | nil => exact Or.inl rfl
  | cons q qs ih =>
    rw [List.foldl_cons]
    rcases ih (if q.1.utf8ByteSize > m then q.1.utf8ByteSize else m) with h | ⟨p, hp, h⟩
    · rw [h]
      split_ifs with hq
      · exact Or.inr ⟨q, by simp, rfl⟩
      · exact Or.inl rfl
    · exact Or.inr ⟨p, by simp [hp], h⟩

/-- The variable `maxKeyLen` is the byte length of a longest key. -/
theorem maxKeyLen_spec (l : List (String × String)) :
    (∀ p ∈ l, p.1.utf8ByteSize ≤ maxKeyLen l) ∧
    (l ≠ [] → ∃ p ∈ l, p.1.utf8ByteSize = maxKeyLen l) := by
  refine ⟨fun p hp => foldl_maxKey_ge_mem l 0 p hp, fun hne => ?_⟩
  rcases foldl_maxKey_attained l 0 with h | h
  · cases l with
    | nil => exact absurd rfl hne
    | cons q qs =>
      refine ⟨q, by simp, ?_⟩
      have := foldl_maxKey_ge_mem (q :: qs) 0 q (by simp)
      unfold maxKeyLen
      omega
  · exact h

theorem mem_popupPairs (hd : HostDetails) (k v : String) :
    (k, v) ∈ popupPairs hd ↔
      (hd.Details.lookup k = some v ∨
        (k = "HostName" ∧ hd.Details.lookup "HostName" = none ∧ hd.HostName ≠ "" ∧
          v = hd.HostName)) := by
  have hent : (k, v) ∈ hd.Details.entries.map (fun e => (e.1, e.2)) ↔
      hd.Details.lookup k = some v := by
    rw [← Option.mem_def, AList.mem_lookup_iff, List.mem_map]
    constructor
    · rintro ⟨⟨k2, v2⟩, he, heq⟩
      simp only [Prod.mk.injEq] at heq
      obtain ⟨rfl, rfl⟩ := heq
      exact he
    · intro he
      exact ⟨⟨k, v⟩, he, rfl⟩
  unfold popupPairs
  simp only
  split_ifs with hc
  · rw [List.mem_append, hent]
    simp only [List.mem_singleton, Prod.mk.injEq]
    constructor
    · rintro (h | ⟨h1, h2⟩)
      · exact Or.inl h
      · exact Or.inr ⟨h1, hc.1, hc.2, h2⟩
    · rintro (h | ⟨h1, _, _, h2⟩)
      · exact Or.inl h
      · exact Or.inr ⟨h1, h2⟩
  · rw [hent]
    constructor
    · exact Or.inl
    · rintro (h | ⟨_, h2, h3, _⟩)
      · exact h
      · exact absurd ⟨h2, h3⟩ hc

theorem popupPairs_keys_nodup (hd : HostDetails) : ((popupPairs hd).map Prod.fst).Nodup := by
  have hk : (hd.Details.entries.map (fun e => (e.1, e.2))).map Prod.fst = hd.Details.keys := by
    rw [List.map_map]
    rfl
  unfold popupPairs
  simp only
  split_ifs with hc
  · rw [List.map_append, hk]
    have hnot : "HostName" ∉ hd.Details.keys := by
      rw [← AList.mem_keys, ← AList.lookup_eq_none]
      exact hc.1
    rw [List.nodup_append]
    refine ⟨hd.Details.keys_nodup, by simp, ?_⟩
    intro a ha hb
    simp only [List.map_cons, List.map_nil, List.mem_singleton] at hb
    subst hb
    exact hnot ha
  · rw [hk]
    exact hd.Details.keys_nodup

theorem sortedPairs_strictly_sorted (hd : HostDetails) :
    ((sortedPairs hd).map Prod.fst).Pairwise (· < ·) := by
  have hp : (sortedPairs hd).Perm (popupPairs hd) := List.perm_insertionSort _ _
  have hnd : ((sortedPairs hd).map Prod.fst).Nodup :=
    (hp.map Prod.fst).nodup_iff.mpr (popupPairs_keys_nodup hd)
  have hs : ((sortedPairs hd).map Prod.fst).Pairwise (· ≤ ·) := by
    rw [List.pairwise_map]
    exact insertionSort_key_sorted Prod.fst (popupPairs hd)
  exact (hs.and hnd).imp (fun ⟨h1, h2⟩ => lt_of_le_of_ne h1 h2)

/-- A row is the key, blanks up to the column `width + 4`, the value and a newline. -/
theorem formatRow_spec (width : Nat) (pair : String × String)
    (hw : pair.1.utf8ByteSize ≤ width) :
    ∃ n, formatRow width pair =
        pair.1 ++ ⟨List.replicate n (Char.ofNat 32)⟩ ++ pair.2 ++ "\n" ∧
      pair.1.length + n = width + 4 := by
  have hl := length_le_utf8ByteSize pair.1
  refine ⟨width - pair.1.length + 4, ?_, by omega⟩
  unfold formatRow padRight
  apply String.ext
  simp [String.data_append, List.replicate_add]

/-- C10, as amended. For every HostDetails record, the rows that
`createPopupView` writes after the alias header are the scanned attributes,
plus a HostName row with the hostname of the host when `HostName` is not among
the scanned attributes and that hostname is not empty; the rows are in strictly
ascending order of key, one row per key, and in every row the value starts at
the same column: the byte length of the longest key plus four. -/
theorem createPopupView_rows {L : Type} (m : Model L) (hd : HostDetails) :
    createPopupView { m with hostDetails := some hd } =
        hd.Alias ++ "\n\n" ++ String.join (popupRows hd) ∧
    (∀ k v, (k, v) ∈ sortedPairs hd ↔
      (hd.Details.lookup k = some v ∨
        (k = "HostName" ∧ hd.Details.lookup "HostName" = none ∧ hd.HostName ≠ "" ∧
          v = hd.HostName))) ∧
    ((sortedPairs hd).map Prod.fst).Pairwise (· < ·) ∧
    (∀ p ∈ sortedPairs hd, p.1.utf8ByteSize ≤ maxKeyLen (sortedPairs hd)) ∧
    (sortedPairs hd ≠ [] →
      ∃ p ∈ sortedPairs hd, p.1.utf8ByteSize = maxKeyLen (sortedPairs hd)) ∧
    List.Forall₂
      (fun p row => ∃ n, row = p.1 ++ ⟨List.replicate n (Char.ofNat 32)⟩ ++ p.2 ++ "\n" ∧
        p.1.length + n = maxKeyLen (sortedPairs hd) + 4)
      (sortedPairs hd) (popupRows hd) := by
  have hp : (sortedPairs hd).Perm (popupPairs hd) := List.perm_insertionSort _ _
  refine ⟨rfl, ?_, sortedPairs_strictly_sorted hd, (maxKeyLen_spec _).1,
    (maxKeyLen_spec _).2, ?_⟩
  · intro k v
    rw [hp.mem_iff]
    exact mem_popupPairs hd k v
  · unfold popupRows
    rw [List.forall₂_map_right_iff, List.forall₂_same]
    intro p hpm
    exact formatRow_spec _ p ((maxKeyLen_spec _).1 p hpm)

/-- Witness for C10: a host with a hostname and the attribute `User`. -/
theorem createPopupView_rows_witness :
    createPopupView { (NewModel plainToolkit []) with hostDetails := some userAndHostDetails } =
        userAndHostDetails.Alias ++ "\n\n" ++ String.join (popupRows userAndHostDetails) ∧
    (∀ k v, (k, v) ∈ sortedPairs userAndHostDetails ↔
      (userAndHostDetails.Details.lookup k = some v ∨
        (k = "HostName" ∧ userAndHostDetails.Details.lookup "HostName" = none ∧
          userAndHostDetails.HostName ≠ "" ∧ v = userAndHostDetails.HostName))) ∧
    ((sortedPairs userAndHostDetails).map Prod.fst).Pairwise (· < ·) ∧
    (∀ p ∈ sortedPairs userAndHostDetails,
      p.1.utf8ByteSize ≤ maxKeyLen (sortedPairs userAndHostDetails)) ∧
    (sortedPairs userAndHostDetails ≠ [] →
      ∃ p ∈ sortedPairs userAndHostDetails,
        p.1.utf8ByteSize = maxKeyLen (sortedPairs userAndHostDetails)) ∧
    List.Forall₂
      (fun p row => ∃ n, row = p.1 ++ ⟨List.replicate n (Char.ofNat 32)⟩ ++ p.2 ++ "\n" ∧
        p.1.length + n = maxKeyLen (sortedPairs userAndHostDetails) + 4)
      (sortedPairs userAndHostDetails) (popupRows userAndHostDetails) :=
  createPopupView_rows (NewModel plainToolkit []) userAndHostDetails

/-- The popup of that host: the synthesized row comes first, the values are aligned. -/
theorem createPopupView_example :
    createPopupView { (NewModel plainToolkit []) with hostDetails := some userAndHostDetails } =
      "web\n\nHostName    10.0.0.1\nUser        alice\n" := by
  decide

/-- C10 as stated fails: for a host without hostname whose block has a `User`
directive only, `HostName` is not among the scanned attributes, yet the popup
has no HostName row. -/
theorem createPopupView_no_row_for_empty_hostName :
    userOnlyDetails.Details.lookup "HostName" = none ∧
      popupRows userOnlyDetails = ["User    alice\n"] ∧
      createPopupView
          { (NewModel plainToolkit []) with viewing := true, hostDetails := some userOnlyDetails } =
        "web\n\nUser    alice\n" := by
  decide

/-! ## Selecting a host -/

/-- The key `enter` on a highlighted host ends the menu with the alias of that
host as the choice. -/
theorem update_enter_selects {L : Type} (W : Toolkit L) (T : Lib) (os : OS) (m : Model L)
    (item : Host) (hsel : W.selectedItem m.list = some item) :
    Update W T os m (.key "enter") =
      ({ m with choice := item.Alias, done := true }, .quit) := by
  simp [Update, hsel]

theorem windowLoop_ending (os : OS) (host : String) (lines : List String) :
    (windowLoop os host lines).ending = .returned ∨
      (windowLoop os host lines).ending = .replaced := by
  induction lines with
  | nil =>
    rw [windowLoop]
    cases os.lookPath "tmux" with
    | error e => exact Or.inl rfl
    | ok tmuxPath =>
      simp only
      cases os.exec tmuxPath ["tmux", "new-window", "-n", "ssh:" ++ host, "ssh", host] with
      | none => exact Or.inr rfl
      | some e => exact Or.inl rfl
  | cons line rest ih =>
    rw [windowLoop]
    split
    · rename_i index name heq
      split_ifs
      · cases os.lookPath "tmux" with
        | error e => exact Or.inl rfl
        | ok tmuxPath =>
          simp only
          cases os.exec tmuxPath ["tmux", "select-window", "-t", index] with
          | none => exact Or.inr rfl
          | some e => simpa [Run.after] using ih
      · exact ih
    · exact ih

/-- `SSHWindow` returns to its caller or replaces the process; it never exits. -/
theorem sshWindow_ending (os : OS) (host : String) :
    (SSHWindow os host).ending = .returned ∨ (SSHWindow os host).ending = .replaced := by
  unfold SSHWindow
  split_ifs
  · exact Or.inl rfl
  · cases os.output listWindowsArgv with
    | error e => exact Or.inl rfl
    | ok output => simpa [Run.after] using windowLoop_ending os host _

/-- For a choice other than `exit` the launcher goes on to the connect steps: it
announces the host, looks up `ssh`, and never ends with status 0. -/
theorem mainAfterMenu_connects (os : OS) (choice : String) (hne : choice ≠ "exit") :
    (∃ rest, (mainAfterMenu os (.ok choice)).actions =
        .connecting (cleanHost choice) :: .lookPath "ssh" :: rest) ∧
      (mainAfterMenu os (.ok choice)).ending ≠ .exited 0 := by
  simp only [mainAfterMenu, hne, if_false]
  cases os.lookPath "ssh" with
  | error e => exact ⟨⟨_, rfl⟩, by simp⟩
  | ok sshPath =>
    simp only
    rcases sshWindow_ending os (cleanHost choice) with hw | hw
    · rw [hw]
      simp only
      cases os.exec sshPath ["ssh", cleanHost choice] with
      | none => exact ⟨⟨_, rfl⟩, by simp⟩
      | some e => exact ⟨⟨_, rfl⟩, by simp⟩
    · rw [hw]
      exact ⟨⟨_, rfl⟩, by simp⟩

/-- The launcher takes the cancel path exactly for the choice `exit`. -/
theorem mainAfterMenu_cancel_iff (os : OS) (choice : String) :
    mainAfterMenu os (.ok choice) = { actions := [], ending := .exited 0 } ↔
      choice = "exit" := by
  constructor
  · intro h
    by_contra hne
    have := (mainAfterMenu_connects os choice hne).2
    rw [h] at this
    exact this rfl
  · intro h
    simp [mainAfterMenu, h]

/-- Selecting a host whose alias is not `exit` is followed by the connect steps
for that alias, in every menu state and on every system. -/
theorem enter_then_connect {L : Type} (W : Toolkit L) (T : Lib) (os : OS) (m : Model L)
    (item : Host) (hsel : W.selectedItem m.list = some item) (hne : item.Alias ≠ "exit") :
    (Update W T os m (.key "enter")).1.choice = item.Alias ∧
    (∃ rest, (mainAfterMenu os (.ok (Update W T os m (.key "enter")).1.choice)).actions =
        .connecting (cleanHost item.Alias) :: .lookPath "ssh" :: rest) ∧
    (mainAfterMenu os (.ok (Update W T os m (.key "enter")).1.choice)).ending ≠ .exited 0 := by
  rw [update_enter_selects W T os m item hsel]
  exact ⟨rfl, mainAfterMenu_connects os item.Alias hne⟩

/-- C11, the code at the failing input: the configuration has the single block
`Host exit`; the config reader returns that host, the menu highlights it, and
the key `enter` ends the menu with the alias `exit` as the choice, which `main`
takes for a cancellation: it exits with status 0 and never connects. -/
theorem enter_on_host_named_exit_cancels :
    GetSSHHosts asciiLib (osWith exitConfig).userHomeDir (osWith exitConfig).openFile =
      .ok exitHosts ∧
    enterToolkit.selectedItem (NewModel enterToolkit exitHosts).list =
      some { Alias := "exit", HostName := "10.0.0.5" } ∧
    (Update enterToolkit asciiLib (osWith exitConfig) (NewModel enterToolkit exitHosts)
      (.key "enter")).1.choice = "exit" ∧
    (Update enterToolkit asciiLib (osWith exitConfig) (NewModel enterToolkit exitHosts)
      (.key "enter")).2 = .quit ∧
    enterToolkit.runProgram (NewModel enterToolkit exitHosts) =
      .ok (Update enterToolkit asciiLib (osWith exitConfig) (NewModel enterToolkit exitHosts)
        (.key "enter")).1 ∧
    main asciiLib enterToolkit (osWith exitConfig) = { actions := [], ending := .exited 0 } :=
  ⟨by decide, by decide, by decide, by decide, rfl, by decide⟩

/-- The same menu on a host with another alias: `enter` is followed by `ssh`. -/
theorem enter_on_host_connects_example :
    main asciiLib enterToolkit (osWith ["Host web", "    HostName 10.0.0.1"]) =
      { actions := [.connecting "web", .lookPath "ssh", .exec "/usr/bin/ssh" ["ssh", "web"]],
        ending := .replaced } := by
  decide

end Ssm
